import Mathlib

/-!
Verification of the keyctl SSH key manager (directory `src/keyctl`).

The development is a shallow embedding of the Python source:
 * Python strings are `List Char` (`Str`); files are bindings in an
   association list from path to `FileData` (`FS`), which models the
   insertion-ordered dictionary/directory state the code manipulates.
 * external collaborators (`ssh-keygen`, `ssh-add`) are parameters: the
   key generator is a function from (key type, comment) to an optional
   pair of generated files, `none` meaning the subprocess failed
   (`subprocess.CalledProcessError`).
 * fallible filesystem primitives (`os.rename`, `os.chmod`) return
   `Option`; the `try`/`except` blocks of the source become matches on
   those options.
 * timestamps are modelled at day granularity as integers, which is the
   resolution at which `config.py` computes `(now - set_date).days`.
-/

namespace Keyctl

/-- Characters of a Python string. -/
abbrev Str := List Char

/-- Python `c in s` for a single character. -/
def hasChar (s : Str) (c : Char) : Bool := s.any (fun d => d = c)

/-- Python `s.startswith(p)`. -/
def startsWithL : Str → Str → Bool
  | _, [] => true
  | [], _ :: _ => false
  | c :: s, d :: p => if c = d then startsWithL s p else false

/-- Python `sub in s` (substring containment). -/
def isInfixL (sub : Str) : Str → Bool
  | [] => sub.isEmpty
  | c :: t => startsWithL (c :: t) sub || isInfixL sub t

/-- Python `s.lower()` (per character). -/
def lowerL (s : Str) : Str := s.map Char.toLower

/-- Python's Unicode whitespace class: exactly the code points for
which `str.isspace()` holds, which are also the characters removed by
`str.strip()` and split on by `str.split()` (0x09-0x0D, 0x1C-0x20,
NEL, NBSP, and the Unicode space separators). -/
def pyIsSpace (c : Char) : Bool :=
  let n := c.toNat
  (0x09 ≤ n && n ≤ 0x0D) || (0x1C ≤ n && n ≤ 0x20) ||
  n = 0x85 || n = 0xA0 || n = 0x1680 || (0x2000 ≤ n && n ≤ 0x200A) ||
  n = 0x2028 || n = 0x2029 || n = 0x202F || n = 0x205F || n = 0x3000

/-- Python `s.strip()`: drop whitespace from both ends. -/
def pyStrip (s : Str) : Str :=
  ((s.dropWhile pyIsSpace).reverse.dropWhile pyIsSpace).reverse

/-- Helper for `pyWords`: accumulates the current word (reversed). -/
def pyWordsAux : Str → Str → List Str
  | [], acc => if acc = [] then [] else [acc.reverse]
  | c :: s, acc =>
    if pyIsSpace c then
      if acc = [] then pyWordsAux s [] else acc.reverse :: pyWordsAux s []
    else pyWordsAux s (c :: acc)

/-- Python `s.split()` with no argument: split on whitespace runs. -/
def pyWords (s : Str) : List Str := pyWordsAux s []

/-- Python `s.split(" ", 1)` when a space is known to occur in `s`:
the part before the first space and the part after it. -/
def splitFirstSpace (s : Str) : Str × Str :=
  (s.takeWhile (fun c => c ≠ ' '), (s.dropWhile (fun c => c ≠ ' ')).tail)

/-- Final component of a path, like `pathlib.PurePath.name`
(the characters after the last slash). -/
def pathNameL (p : Str) : Str :=
  (p.reverse.takeWhile (fun c => c ≠ '/')).reverse

/-- Extension of the final component, like `pathlib.PurePath.suffix`:
the part of the name from its last dot, provided that dot is neither the
first nor the last character of the name; otherwise the empty string. -/
def pathSuffixL (p : Str) : Str :=
  let rname := p.reverse.takeWhile (fun c => c ≠ '/')
  let rpre := rname.takeWhile (fun c => c ≠ '.')
  if rpre.length < rname.length ∧ 0 < rpre.length ∧ rpre.length + 1 < rname.length then
    (rpre ++ ['.']).reverse
  else []

/-- Python `PurePath.with_suffix(suf)`: strip the current suffix from the
end and append the new one. -/
def withSuffixL (p : Str) (suf : Str) : Str :=
  p.take (p.length - (pathSuffixL p).length) ++ suf

/-- Python `Path(d) / n` (no normalization of dots). -/
def pathJoin (d n : Str) : Str := d ++ '/' :: n

/-- Python `PurePath.parent`: drop the final component, `"."` when the
path has no slash (trailing-slash inputs are not normalized; the code
under verification never produces them). -/
def pathParentL (p : Str) : Str :=
  match p.reverse.dropWhile (fun c => c ≠ '/') with
  | '/' :: rest => if rest = [] then ['/'] else rest.reverse
  | _ => ['.']

/-- Contents and permission bits of one file (or directory). -/
structure FileData where
  content : Str
  mode : Nat
deriving DecidableEq, Repr

/-- The filesystem: an association list from path to file, in creation
order (also reused for the JSON dictionaries, which preserve insertion
order in Python). -/
abbrev FS := List (Str × FileData)

/-- Dictionary update: replace the binding of `k` in place if present,
otherwise append it at the end (Python dict assignment semantics). -/
def assocSet {α : Type} : List (Str × α) → Str → α → List (Str × α)
  | [], k, v => [(k, v)]
  | e :: t, k, v => if e.1 = k then (k, v) :: t else e :: assocSet t k v

/-- Dictionary lookup (first binding wins). -/
def assocGet {α : Type} (l : List (Str × α)) (k : Str) : Option α :=
  (l.find? (fun e => e.1 = k)).map (fun e => e.2)

/-- Dictionary deletion / `unlink`. -/
def assocDel {α : Type} (l : List (Str × α)) (k : Str) : List (Str × α) :=
  l.filter (fun e => ¬ e.1 = k)

/-- Python `path.exists()` / a successful `stat`. -/
def fsExists (fs : FS) (p : Str) : Bool := (assocGet fs p).isSome

/-- Python `os.rename(src, dst)`: `none` when the source is missing
(`OSError`), otherwise move the file, silently replacing `dst`. -/
def renameF (fs : FS) (src dst : Str) : Option FS :=
  match assocGet fs src with
  | none => none
  | some f => some (assocSet (assocDel fs src) dst f)

/-- Python `os.chmod(p, m)` at a path that is known to exist; at a
missing path the source always guards the call with an existence check,
so the error branch leaves the filesystem unchanged. -/
def chmodT (fs : FS) (p : Str) (m : Nat) : FS :=
  match assocGet fs p with
  | none => fs
  | some f => assocSet fs p { f with mode := m }

/-! Security layer: `src/keyctl/security/key_security.py` (`KeySecurity`). -/

/-- KeySecurity.check_permissions: compare the file's mode bits with the
expected mode for its role (0o644 for a `.pub` path, 0o600 otherwise).
A failing `stat` is caught and reported as `False`. -/
def check_permissions (fs : FS) (key_path : Str) : Bool :=
  match assocGet fs key_path with
  | none => false
  | some f =>
    let expected := if pathSuffixL key_path = ".pub".toList then 0o644 else 0o600
    if f.mode = expected then true else false

/-- KeySecurity.fix_permissions: chmod the private key to 0o600, the
sibling `.pub` to 0o644 and the containing directory to 0o700, each step
guarded by an existence check; returns success. (The `except` branch of
the source is unreachable here because every `chmod` is guarded.) -/
def fix_permissions (fs : FS) (key_path : Str) : FS × Bool :=
  let fs1 := if fsExists fs key_path then chmodT fs key_path 0o600 else fs
  let pub := key_path ++ ".pub".toList
  let fs2 := if fsExists fs1 pub then chmodT fs1 pub 0o644 else fs1
  let d := pathParentL key_path
  let fs3 := if fsExists fs2 d then chmodT fs2 d 0o700 else fs2
  (fs3, true)

/-- KeySecurity.validate_key_name: reject path traversal and separators,
then require one of the recognized `id_` prefixes. -/
def validate_key_name (name : Str) : Bool :=
  if isInfixL "..".toList name || hasChar name '/' || hasChar name '\\' then false
  else
    [ "id_ed25519".toList, "id_rsa".toList, "id_ecdsa".toList, "id_dsa".toList
    ].any (fun p => startsWithL name p)

/-- KeySecurity.secure_key_deletion: a missing path returns success at
once; otherwise overwrite the content with random bytes (`rnd`), unlink
the file, and unlink the sibling `.pub` if present. -/
def secure_key_deletion (fs : FS) (key_path : Str) (rnd : Str) : FS × Bool :=
  if ¬ fsExists fs key_path then (fs, true)
  else
    let fs1 := match assocGet fs key_path with
      | some f => assocSet fs key_path { f with content := rnd }
      | none => fs
    let fs2 := assocDel fs1 key_path
    let pub := key_path ++ ".pub".toList
    let fs3 := if fsExists fs2 pub then assocDel fs2 pub else fs2
    (fs3, true)

/-! Validation helpers: `src/keyctl/utils/validation.py`. -/

/-- validate_expiration_days: raises `ValidationError` outside 1..365.
(The `isinstance` check of the source is subsumed by the `Int` type.) -/
def validate_expiration_days (days : Int) : Except Str Bool :=
  if days < 1 then Except.error "Expiration days must be positive".toList
  else if days > 365 then Except.error "Expiration days cannot exceed 365".toList
  else Except.ok true

/-- validate_host_pattern: the host must be a nonempty run of characters
matching the character class `[a-zA-Z0-9-_.*]` of the regex in the
source (the letter and digit ranges are spelled as code points). -/
def validate_host_pattern (host : Str) : Bool :=
  host ≠ [] && host.all (fun c =>
    (65 ≤ c.toNat && c.toNat ≤ 90) || (97 ≤ c.toNat && c.toNat ≤ 122) ||
    (48 ≤ c.toNat && c.toNat ≤ 57) || c = '-' || c = '_' || c = '.' || c = '*')

/-! Configuration store: `src/keyctl/utils/config.py` (`Config`).
Only the expiration-related state is read by the operations under
verification, so the configuration document is reduced to that member;
`key_expiration` is `none` when the JSON document has no such member
(in which case `config["key_expiration"]` raises `KeyError`). -/

/-- Expiration record stored per key (an ISO datetime in the source,
kept at day granularity here). -/
structure ExpirationEntry where
  days : Int
  set_date : Int
deriving DecidableEq, Repr

/-- Configuration document (the expiration-relevant part). -/
structure ConfigDoc where
  key_expiration : Option (List (Str × ExpirationEntry))
deriving DecidableEq, Repr

/-- Decimal digits of a natural number, like Python `str(n)`; written
with structural fuel (always sufficient at `n + 1`) so that it reduces
by computation. -/
def natReprAux : Nat → Nat → Str
  | 0, _ => []
  | fuel + 1, n =>
    if n < 10 then [Nat.digitChar n]
    else natReprAux fuel (n / 10) ++ [Nat.digitChar (n % 10)]

/-- Python `str(n)` for a natural number. -/
def natRepr (n : Nat) : Str := natReprAux (n + 1) n

/-- Python `str(i)` for an integer. -/
def intRepr (i : Int) : Str :=
  if i < 0 then '-' :: natRepr i.natAbs else natRepr i.toNat

/-- Config.set_key_expiration: materialize the `key_expiration` mapping
if absent, store the record for the key, save, and report success. No
validation of `days` is performed by the source. -/
def set_key_expiration (cfg : ConfigDoc) (key_name : Str) (days : Int) (now : Int) :
    ConfigDoc × Bool × Str :=
  let ke := cfg.key_expiration.getD []
  let ke2 := assocSet ke key_name { days := days, set_date := now }
  ({ key_expiration := some ke2 }, true,
    "Set ".toList ++ intRepr days ++ " days expiration for ".toList ++ key_name)

/-- Config.check_key_expirations: for each tracked key compute
`days - (now - set_date)` and keep the keys whose remaining days lie in
the half-open interval (0, 30]. A missing `key_expiration` member makes
the lookup raise `KeyError`, which the `except` turns into an empty
result. -/
def check_key_expirations (cfg : ConfigDoc) (now : Int) : List (Str × Int) :=
  match cfg.key_expiration with
  | none => []
  | some ke => ke.filterMap (fun e =>
      let days_left := e.2.days - (now - e.2.set_date)
      if 0 < days_left ∧ days_left ≤ 30 then some (e.1, days_left) else none)

/-! Lifecycle controller: `src/keyctl/core/key_manager.py` (`KeyManager`).
The key generator collaborator (`ssh-keygen`) is a parameter `gen`
mapping the key type and optional comment to `none` (subprocess failure)
or the generated private/public files. The agent collaborator
(`ssh-add`) is a boolean parameter `agentOk`; it touches only the usage
statistics, never the key files. -/

/-- Outcome of the key generator collaborator: the private and public
files it writes on success. -/
abbrev GenOutcome := Option (FileData × FileData)

/-- Generator collaborator: `ssh-keygen -t <type> [-C <comment>]`. -/
abbrev Generator := Str → Option Str → GenOutcome

/-- Result of `KeyManager.create_key`: the filesystem afterwards, the
reported `(success, message)` pair, and an instrumentation bit recording
whether the generator subprocess was invoked. -/
structure CreateResult where
  fs : FS
  success : Bool
  message : Str
  genInvoked : Bool
deriving Repr

/-- KeyManager.add_to_agent: refuse when the permission check fails;
otherwise the outcome is the agent collaborator's. Usage statistics
recording has no effect on the key files and is omitted. -/
def add_to_agent (agentOk : Bool) (fs : FS) (key_path : Str) : Bool :=
  if ¬ check_permissions fs key_path then false
  else agentOk

/-- KeyManager.create_key: fail at once when the target path exists;
otherwise run the generator, fix permissions on the new files, attempt
agent registration (its outcome is discarded by the source), and report
success. -/
def create_key (gen : Generator) (agentOk : Bool) (fs : FS) (ssh_dir : Str)
    (name : Str) (key_type : Str) (comment : Option Str) : CreateResult :=
  let key_path := pathJoin ssh_dir name
  if fsExists fs key_path then
    { fs := fs, success := false, message := "Key already exists".toList,
      genInvoked := false }
  else
    match gen key_type comment with
    | none =>
      { fs := fs, success := false, message := "Key creation failed: ".toList,
        genInvoked := true }
    | some (privF, pubF) =>
      let fs1 := assocSet fs key_path privF
      let fs2 := assocSet fs1 (key_path ++ ".pub".toList) pubF
      let fs3 := (fix_permissions fs2 key_path).1
      let _agent := add_to_agent agentOk fs3 key_path
      { fs := fs3, success := true, message := "Key created successfully".toList,
        genInvoked := true }

/-- KeyManager.list_keys: glob `id_*` in the SSH directory, keep the
entries with no extension whose name is not `id_ed25519_sk`. -/
def list_keys (fs : FS) (ssh_dir : Str) : List Str :=
  (fs.filter (fun e =>
    startsWithL e.1 (ssh_dir ++ ['/']) &&
    (let n := e.1.drop (ssh_dir.length + 1)
     ¬ hasChar n '/' && startsWithL n "id_".toList &&
     pathSuffixL e.1 = [] && n ≠ "id_ed25519_sk".toList))).map (fun e => e.1)

/-- Key metadata assembled by `KeyManager.get_key_info`; the fields that
feed `rotate_key` (type and comment parsed from the single-line public
key) plus the private key's permission bits. Usage and expiration
records are merged from the configuration store in the source but are
not read by any operation verified here. -/
structure KeyInfo where
  type : Option Str
  comment : Option Str
  permissions : Nat
deriving Repr

/-- Python `s.replace(old, new)` for the specific `"ssh-"` deletion used
when parsing the public key type (removes every occurrence). -/
def stripSshDashes : Str → Str
  | [] => []
  | c :: t =>
    if startsWithL (c :: t) "ssh-".toList then stripSshDashes ((c :: t).drop 4)
    else c :: stripSshDashes t
termination_by s => s.length
decreasing_by
  · simp [List.length_drop]
    omega
  · simp

/-- Python `" ".join(parts)`. -/
def joinSpaces : List Str → Str
  | [] => []
  | [w] => w
  | w :: ws => w ++ ' ' :: joinSpaces ws

/-- KeyManager.get_key_info: `stat` the private key (raising — `none` —
when it is missing), then parse `<type> <base64> <comment...>` from the
sibling public key when that file exists. -/
def get_key_info (fs : FS) (key_path : Str) : Option KeyInfo :=
  match assocGet fs key_path with
  | none => none
  | some f =>
    let base : KeyInfo := { type := none, comment := none, permissions := f.mode }
    match assocGet fs (key_path ++ ".pub".toList) with
    | none => some base
    | some pf =>
      let parts := pyWords (pyStrip pf.content)
      let info1 := if parts.length ≥ 2
        then { base with type := some (stripSshDashes (parts.getD 0 [])) }
        else base
      let info2 := if parts.length ≥ 3
        then { info1 with comment := some (joinSpaces (parts.drop 2)) }
        else info1
      some info2

/-- Backup path chosen by `rotate_key`: the key path with its suffix
replaced by `.bak_<timestamp>`. -/
def rotate_backup_path (key_path ts : Str) : Str :=
  withSuffixL key_path (".bak_".toList ++ ts)

/-- Result of `KeyManager.rotate_key`. -/
structure RotateResult where
  fs : FS
  success : Bool
  message : Str
deriving Repr

/-- The `create_key` call performed inside `rotate_key` after the
original key has been renamed to its timestamped backup. -/
def rotateCreateStep (gen : Generator) (agentOk : Bool) (fs : FS)
    (ssh_dir key_path ts : Str) : CreateResult :=
  match renameF fs key_path (rotate_backup_path key_path ts) with
  | none => { fs := fs, success := false, message := [], genInvoked := false }
  | some fs1 =>
    match get_key_info fs key_path with
    | none => { fs := fs, success := false, message := [], genInvoked := false }
    | some info =>
      create_key gen agentOk fs1 ssh_dir (pathNameL key_path)
        (info.type.getD "ed25519".toList) info.comment

/-- KeyManager.rotate_key: read the current metadata, rename the key to
a timestamped backup, regenerate under the original name, and on
regeneration failure rename the backup back before reporting failure.
A missing key makes `get_key_info`'s `stat` raise, caught by the outer
`except`. -/
def rotate_key (gen : Generator) (agentOk : Bool) (fs : FS)
    (ssh_dir key_path ts : Str) : RotateResult :=
  match get_key_info fs key_path with
  | none => { fs := fs, success := false, message := "Error rotating key: ".toList }
  | some _ =>
    let backup := rotate_backup_path key_path ts
    match renameF fs key_path backup with
    | none => { fs := fs, success := false, message := "Error rotating key: ".toList }
    | some _ =>
      let r := rotateCreateStep gen agentOk fs ssh_dir key_path ts
      if r.success then
        { fs := r.fs, success := true, message := "Key rotated successfully".toList }
      else
        match renameF r.fs backup key_path with
        | none =>
          { fs := r.fs, success := false, message := "Error rotating key: ".toList }
        | some fs2 =>
          { fs := fs2, success := false,
            message := "Key rotation failed: ".toList ++ r.message }

/-! SSH client configuration: `KeyManager.get_ssh_config`,
`KeyManager.update_ssh_config`. The config file is modelled by its list
of lines; the mapping of host pattern to option block is an insertion-
ordered association list, like the Python dict the source builds. -/

/-- Parsed SSH client configuration: hosts in file order, each with its
options in file order. -/
abbrev SshConfig := List (Str × List (Str × Str))

/-- Python `config[host][key] = value` for a host present in the dict. -/
def setHostOpt (cfg : SshConfig) (h k v : Str) : SshConfig :=
  cfg.map (fun e => if e.1 = h then (h, assocSet e.2 k v) else e)

/-- Line loop of `get_ssh_config`: strip each line; skip blanks and `#`
comments; a line whose lowering starts with `host ` opens a new block
named by the second whitespace-separated word; any other line containing
a space, while inside a block, is split at its first space into an
option name and value. -/
def parseLoop : List Str → SshConfig → Option Str → SshConfig
  | [], cfg, _ => cfg
  | l :: ls, cfg, cur =>
    let s := pyStrip l
    if s = [] || startsWithL s ['#'] then parseLoop ls cfg cur
    else if startsWithL (lowerL s) "host ".toList then
      let h := (pyWords s).getD 1 []
      parseLoop ls (assocSet cfg h []) (some h)
    else
      match cur with
      | some h =>
        if hasChar s ' ' then
          parseLoop ls (setHostOpt cfg h (splitFirstSpace s).1 (splitFirstSpace s).2)
            (some h)
        else parseLoop ls cfg cur
      | none => parseLoop ls cfg cur

/-- KeyManager.get_ssh_config (a missing file is the empty line list). -/
def get_ssh_config (file : List Str) : SshConfig := parseLoop file [] none

/-- Serialization performed by `update_ssh_config`: each host block is a
`Host <pattern>` line, one four-space-indented `<option> <value>` line
per option, and a blank line. -/
def serializeConfig (cfg : SshConfig) : List Str :=
  (cfg.map (fun e =>
    ("Host ".toList ++ e.1) ::
      e.2.map (fun o => "    ".toList ++ o.1 ++ ' ' :: o.2) ++ [([] : Str)])).flatten

/-- Arguments of one `update_ssh_config` call. -/
structure UpdateCall where
  host : Str
  key : Option Str
  user : Option Str
  port : Option Int
deriving DecidableEq, Repr

/-- Dictionary mutation performed by `update_ssh_config`: create the
host entry when absent, then store each supplied option. Python
truthiness makes an empty-string key/user and a zero port behave as
omitted, hence the guards. -/
def applyUpdate (cfg : SshConfig) (u : UpdateCall) : SshConfig :=
  let cfg1 := if cfg.any (fun e => e.1 = u.host) then cfg else cfg ++ [(u.host, [])]
  let cfg2 := match u.key with
    | some k => if k ≠ [] then setHostOpt cfg1 u.host "IdentityFile".toList k else cfg1
    | none => cfg1
  let cfg3 := match u.user with
    | some w => if w ≠ [] then setHostOpt cfg2 u.host "User".toList w else cfg2
    | none => cfg2
  match u.port with
  | some p => if p ≠ 0 then setHostOpt cfg3 u.host "Port".toList (intRepr p) else cfg3
  | none => cfg3

/-- KeyManager.update_ssh_config: read the whole current mapping, mutate
it, and write every block back. -/
def update_ssh_config (file : List Str) (u : UpdateCall) : List Str × Bool × Str :=
  let cfg := get_ssh_config file
  let cfg2 := applyUpdate cfg u
  (serializeConfig cfg2, true, "Updated SSH config for ".toList ++ u.host)

/-- A sequence of `update_ssh_config` calls, each reading the file the
previous one wrote. -/
def runUpdates (file : List Str) (us : List UpdateCall) : List Str :=
  us.foldl (fun f u => (update_ssh_config f u).1) file

/-- Effect of one update on the option block of its host: store each
supplied (truthy) option, leaving every other option untouched. -/
def applyOpts (opts : List (Str × Str)) (u : UpdateCall) : List (Str × Str) :=
  let o1 := match u.key with
    | some k => if k ≠ [] then assocSet opts "IdentityFile".toList k else opts
    | none => opts
  let o2 := match u.user with
    | some w => if w ≠ [] then assocSet o1 "User".toList w else o1
    | none => o1
  match u.port with
  | some p => if p ≠ 0 then assocSet o2 "Port".toList (intRepr p) else o2
  | none => o2

/-- Option block that one update produces for a previously absent host:
exactly the supplied (truthy) options, in the serialization order
IdentityFile, User, Port. -/
def suppliedOpts (u : UpdateCall) : List (Str × Str) := applyOpts [] u

/-- Option names an update actually stores (empty-string and zero
values are falsy in Python and behave as omitted). -/
def suppliedNames (u : UpdateCall) : List Str :=
  (suppliedOpts u).map Prod.fst

/-- Well-formed option value for the line-oriented config format: it
survives the write/strip/re-split round trip exactly when it is
nonempty, contains no line break, and does not end in a character that
Python's `str.strip()` removes. -/
def wfValue (v : Str) : Bool :=
  !v.isEmpty && !hasChar v '\n' && !hasChar v '\r' &&
    (v.getLast?.map (fun c => !pyIsSpace c)).getD false

/-- Supplied optional value: either omitted, falsy (empty), or
well-formed. -/
def wfOptValue : Option Str → Bool
  | none => true
  | some v => v.isEmpty || wfValue v

/-- Well-formed update call: the host matches the restricted host
pattern character set of `validation.py`, and supplied textual values
are well-formed. -/
def wfCall (u : UpdateCall) : Bool :=
  validate_host_pattern u.host && wfOptValue u.key && wfOptValue u.user

/-- Option names `update_ssh_config` can ever write. -/
def wfOptName (k : Str) : Bool :=
  k = "IdentityFile".toList || k = "User".toList || k = "Port".toList

/-- Invariant of configurations produced by sequences of well-formed
updates: host patterns are unique and well-formed, option names come
from the fixed set and are unique per host, and values are
well-formed. -/
def wfConfig (cfg : SshConfig) : Prop :=
  (cfg.map Prod.fst).Nodup ∧
  ∀ e ∈ cfg, validate_host_pattern e.1 = true ∧ (e.2.map Prod.fst).Nodup ∧
    ∀ o ∈ e.2, wfOptName o.1 = true ∧ wfValue o.2 = true

instance (cfg : SshConfig) : Decidable (wfConfig cfg) := by
  unfold wfConfig; infer_instance

/-- Well-formed option block: unique names from the fixed set,
well-formed values. -/
def wfOpts (l : List (Str × Str)) : Prop :=
  (l.map Prod.fst).Nodup ∧ ∀ o ∈ l, wfOptName o.1 = true ∧ wfValue o.2 = true

/-! Basic dictionary and filesystem lemmas. -/

theorem assocGet_cons {α : Type} (e : Str × α) (t : List (Str × α)) (k : Str) :
    assocGet (e :: t) k = if e.1 = k then some e.2 else assocGet t k := by
  by_cases h : e.1 = k <;> simp [assocGet, List.find?_cons, h]

theorem assocGet_assocSet_self {α : Type} (l : List (Str × α)) (k : Str) (v : α) :
    assocGet (assocSet l k v) k = some v := by
  induction l with
  | nil => simp [assocSet, assocGet_cons]
  | cons e t ih =>
    by_cases h : e.1 = k
    · simp [assocSet, h, assocGet_cons]
    · simp [assocSet, h, assocGet_cons, ih]

theorem assocGet_assocSet_ne {α : Type} (l : List (Str × α)) (k q : Str) (v : α)
    (h : q ≠ k) : assocGet (assocSet l k v) q = assocGet l q := by
  induction l with
  | nil => simp [assocSet, assocGet_cons, assocGet, Ne.symm h]
  | cons e t ih =>
    by_cases he : e.1 = k
    · subst he
      simp [assocSet, assocGet_cons, Ne.symm h, fun hq : e.1 = q => h (hq.symm.trans rfl)]
    · simp [assocSet, he, assocGet_cons, ih]

theorem assocGet_assocDel_self {α : Type} (l : List (Str × α)) (k : Str) :
    assocGet (assocDel l k) k = none := by
  induction l with
  | nil => simp [assocDel, assocGet]
  | cons e t ih =>
    by_cases h : e.1 = k <;>
      simpa [assocDel, List.filter_cons, h, assocGet_cons, decide_not] using ih

theorem assocGet_assocDel_ne {α : Type} (l : List (Str × α)) (k q : Str)
    (h : q ≠ k) : assocGet (assocDel l k) q = assocGet l q := by
  induction l with
  | nil => simp [assocDel]
  | cons e t ih =>
    simp only [assocDel, decide_not] at ih
    by_cases he : e.1 = k
    · have hkq : ¬ k = q := fun hh => h hh.symm
      simp [assocDel, List.filter_cons, he, assocGet_cons, hkq, decide_not, ih]
    · simp [assocDel, List.filter_cons, he, assocGet_cons, decide_not, ih]

theorem mem_of_assocGet_eq_some {α : Type} {l : List (Str × α)} {k : Str} {v : α}
    (h : assocGet l k = some v) : (k, v) ∈ l := by
  induction l with
  | nil => simp [assocGet] at h
  | cons e t ih =>
    rw [assocGet_cons] at h
    by_cases he : e.1 = k
    · rw [if_pos he] at h
      injection h with h2
      obtain ⟨a, b⟩ := e
      cases he
      cases h2
      exact List.mem_cons_self _ _
    · rw [if_neg he] at h
      exact List.mem_cons_of_mem _ (ih h)

theorem fsExists_chmodT (fs : FS) (p : Str) (m : Nat) (q : Str) :
    fsExists (chmodT fs p m) q = fsExists fs q := by
  unfold chmodT
  cases hp : assocGet fs p with
  | none => rfl
  | some f =>
    by_cases hq : q = p
    · subst hq
      simp [fsExists, assocGet_assocSet_self, hp]
    · simp [fsExists, assocGet_assocSet_ne _ _ _ _ hq]

theorem assocGet_chmodT_ne (fs : FS) (p : Str) (m : Nat) (q : Str) (h : q ≠ p) :
    assocGet (chmodT fs p m) q = assocGet fs q := by
  unfold chmodT
  cases hp : assocGet fs p with
  | none => rfl
  | some f => exact assocGet_assocSet_ne _ _ _ _ h

theorem assocGet_chmodT_self (fs : FS) (p : Str) (m : Nat) (f : FileData)
    (h : assocGet fs p = some f) :
    assocGet (chmodT fs p m) p = some { f with mode := m } := by
  unfold chmodT
  rw [h]
  exact assocGet_assocSet_self _ _ _

theorem fsExists_fix_permissions (fs : FS) (p : Str) (q : Str) :
    fsExists ((fix_permissions fs p).1) q = fsExists fs q := by
  unfold fix_permissions
  dsimp only
  split_ifs <;> simp [fsExists_chmodT]

theorem assoc_nodup_mem_unique {α : Type} {l : List (Str × α)}
    (hnd : (l.map Prod.fst).Nodup) {k : Str} {a b : α}
    (ha : (k, a) ∈ l) (hb : (k, b) ∈ l) : a = b := by
  induction l with
  | nil => cases ha
  | cons e t ih =>
    rw [List.map_cons, List.nodup_cons] at hnd
    rcases List.mem_cons.mp ha with ha1 | ha2 <;> rcases List.mem_cons.mp hb with hb1 | hb2
    · exact (congrArg Prod.snd (hb1.trans ha1.symm)).symm
    · subst ha1
      exact absurd (List.mem_map.mpr ⟨(k, b), hb2, rfl⟩) hnd.1
    · subst hb1
      exact absurd (List.mem_map.mpr ⟨(k, a), ha2, rfl⟩) hnd.1
    · exact ih hnd.2 ha2 hb2

/-! String and path lemmas. -/

theorem startsWithL_append (l m : Str) : startsWithL (l ++ m) l = true := by
  induction l with
  | nil => cases m <;> rfl
  | cons c t ih => simp [startsWithL, ih]

theorem startsWithL_trans {s p q : Str} (h1 : startsWithL s p = true)
    (h2 : startsWithL p q = true) : startsWithL s q = true := by
  induction q generalizing s p with
  | nil => cases s <;> rfl
  | cons x q' ih =>
    cases p with
    | nil => cases h2
    | cons y p' =>
      cases s with
      | nil => cases h1
      | cons z s' =>
        simp only [startsWithL] at h1 h2
        by_cases hzy : z = y
        · by_cases hyx : y = x
          · rw [if_pos hzy] at h1
            rw [if_pos hyx] at h2
            simp only [startsWithL, hzy.trans hyx, if_pos rfl]
            exact ih h1 h2
          · rw [if_neg hyx] at h2
            cases h2
        · rw [if_neg hzy] at h1
          cases h1

theorem takeWhile_append_all {p : Char → Bool} {l1 : Str} (l2 : Str)
    (h : ∀ c ∈ l1, p c = true) :
    (l1 ++ l2).takeWhile p = l1 ++ l2.takeWhile p := by
  induction l1 with
  | nil => rfl
  | cons c t ih =>
    have hc : p c = true := h c (List.mem_cons_self _ _)
    simp only [List.cons_append, List.takeWhile_cons, hc, if_true]
    rw [ih (fun x hx => h x (List.mem_cons_of_mem _ hx))]

theorem dropWhile_append_all {p : Char → Bool} {l1 : Str} (l2 : Str)
    (h : ∀ c ∈ l1, p c = true) :
    (l1 ++ l2).dropWhile p = l2.dropWhile p := by
  induction l1 with
  | nil => rfl
  | cons c t ih =>
    have hc : p c = true := h c (List.mem_cons_self _ _)
    simp only [List.cons_append, List.dropWhile_cons, hc, if_true]
    exact ih (fun x hx => h x (List.mem_cons_of_mem _ hx))

theorem ne_append_right (l m : Str) (hm : m ≠ []) : l ≠ l ++ m := by
  intro h
  have hl := congrArg List.length h
  rw [List.length_append] at hl
  have : m.length = 0 := by omega
  exact hm (List.length_eq_zero.mp this)

theorem hasChar_false_forall {s : Str} {c : Char} (h : hasChar s c = false) :
    ∀ x ∈ s, ¬ x = c := by
  intro x hx
  simp only [hasChar, List.any_eq_false] at h
  have := h x hx
  simpa using this

theorem reverse_join_slash (d n : Str) :
    (pathJoin d n).reverse = n.reverse ++ '/' :: d.reverse := by
  simp [pathJoin]

theorem pathNameL_join (d n : Str) (h : hasChar n '/' = false) :
    pathNameL (pathJoin d n) = n := by
  unfold pathNameL
  rw [reverse_join_slash]
  rw [takeWhile_append_all ('/' :: d.reverse) (fun c hc => by
    have := hasChar_false_forall h c (List.mem_reverse.mp hc)
    simpa using this)]
  simp [List.takeWhile_cons]

theorem takeWhile_all {p : Char → Bool} {l : Str} (h : ∀ c ∈ l, p c = true) :
    l.takeWhile p = l := by
  have := takeWhile_append_all (p := p) ([] : Str) h
  simpa using this

theorem rname_join (d n : Str) (h : hasChar n '/' = false) :
    (pathJoin d n).reverse.takeWhile (fun c => c ≠ '/') =
      n.reverse.takeWhile (fun c => c ≠ '/') := by
  have hall : ∀ c ∈ n.reverse, (fun c => (c ≠ '/' : Bool)) c = true := fun c hc => by
    have := hasChar_false_forall h c (List.mem_reverse.mp hc)
    simpa using this
  rw [reverse_join_slash, takeWhile_append_all ('/' :: d.reverse) hall, takeWhile_all hall]
  simp [List.takeWhile_cons]

theorem pathSuffixL_join (d n : Str) (h : hasChar n '/' = false) :
    pathSuffixL (pathJoin d n) = pathSuffixL n := by
  unfold pathSuffixL
  rw [rname_join d n h]

theorem pathParentL_join (d n : Str) (h : hasChar n '/' = false) :
    pathParentL (pathJoin d n) = if d = [] then ['/'] else d := by
  have hall : ∀ c ∈ n.reverse, (fun c => (c ≠ '/' : Bool)) c = true := fun c hc => by
    have := hasChar_false_forall h c (List.mem_reverse.mp hc)
    simpa using this
  unfold pathParentL
  rw [reverse_join_slash, dropWhile_append_all ('/' :: d.reverse) hall]
  have hstep : ('/' :: d.reverse).dropWhile (fun c => (c ≠ '/' : Bool)) = '/' :: d.reverse := by
    simp [List.dropWhile_cons]
  rw [hstep]
  by_cases hd : d = []
  · subst hd
    simp
  · have hdr : d.reverse ≠ [] := by simpa using hd
    simp [hdr, hd]

theorem pathSuffixL_append_pub (p : Str) (h : pathNameL p ≠ []) :
    pathSuffixL (p ++ ".pub".toList) = ".pub".toList := by
  have hrev : (p ++ ".pub".toList).reverse = 'b' :: 'u' :: 'p' :: '.' :: p.reverse := by
    simp
  have hrn : 0 < (p.reverse.takeWhile (fun c => (c ≠ '/' : Bool))).length := by
    rcases Nat.eq_zero_or_pos (p.reverse.takeWhile (fun c => (c ≠ '/' : Bool))).length
      with h0 | h1
    · exfalso
      apply h
      unfold pathNameL
      rw [List.length_eq_zero.mp h0]
      rfl
    · exact h1
  have ht : List.takeWhile (fun c => (c ≠ '/' : Bool))
      ('b' :: 'u' :: 'p' :: '.' :: p.reverse) =
      'b' :: 'u' :: 'p' :: '.' :: (p.reverse.takeWhile (fun c => (c ≠ '/' : Bool))) := by
    simp [List.takeWhile_cons]
  have ht2 : List.takeWhile (fun c => (c ≠ '.' : Bool))
      ('b' :: 'u' :: 'p' :: '.' :: (p.reverse.takeWhile (fun c => (c ≠ '/' : Bool)))) =
      ['b', 'u', 'p'] := by
    simp [List.takeWhile_cons]
  unfold pathSuffixL
  rw [hrev]
  simp only [ht, ht2]
  rw [if_pos ⟨by simp only [List.length_cons, List.length_nil]; omega, by decide,
    by simp only [List.length_cons, List.length_nil]; omega⟩]
  rfl

/-! Claim theorems. -/

/-- C9: for every path that does not exist on the filesystem,
`secure_key_deletion` returns success (`true`) without performing any
overwrite or unlink — the filesystem is returned unchanged. -/
theorem secure_key_deletion_missing_path (fs : FS) (p rnd : Str)
    (h : fsExists fs p = false) : secure_key_deletion fs p rnd = (fs, true) := by
  simp [secure_key_deletion, h]

theorem secure_key_deletion_missing_path_witness :
    fsExists [] "id_rsa".toList = false ∧
    secure_key_deletion [] "id_rsa".toList [] = ([], true) :=
  ⟨by decide, secure_key_deletion_missing_path [] _ [] (by decide)⟩

/-- C10: when the configuration document has no `key_expiration` member
(the mapping was never created), `check_key_expirations` returns the
empty mapping: the `KeyError` of the lookup is caught and converted into
an empty result instead of propagating. -/
theorem check_key_expirations_missing_mapping (cfg : ConfigDoc) (now : Int)
    (h : cfg.key_expiration = none) : check_key_expirations cfg now = [] := by
  simp [check_key_expirations, h]

theorem check_key_expirations_missing_mapping_witness :
    (ConfigDoc.mk none).key_expiration = none ∧
    check_key_expirations (ConfigDoc.mk none) 7 = [] :=
  ⟨rfl, check_key_expirations_missing_mapping _ 7 rfl⟩

/-- C4: a tracked key appears in the result of `check_key_expirations`
exactly when its computed remaining days `d = days - (now - set_date)`
satisfies `0 < d ≤ 30`; in particular a key with 30 days left is
included and keys with 0 or 31 days left are excluded. -/
theorem check_key_expirations_boundary (cfg : ConfigDoc) (now : Int)
    (ke : List (Str × ExpirationEntry)) (k : Str) (ent : ExpirationEntry)
    (hke : cfg.key_expiration = some ke)
    (hnd : (ke.map Prod.fst).Nodup)
    (hmem : (k, ent) ∈ ke) (d : Int) :
    (k, d) ∈ check_key_expirations cfg now ↔
      d = ent.days - (now - ent.set_date) ∧ 0 < d ∧ d ≤ 30 := by
  simp only [check_key_expirations, hke]
  constructor
  · intro hmem2
    obtain ⟨e, hel, heq⟩ := List.mem_filterMap.mp hmem2
    by_cases hc : 0 < e.2.days - (now - e.2.set_date) ∧ e.2.days - (now - e.2.set_date) ≤ 30
    · rw [if_pos hc] at heq
      injection heq with heq1
      have hk : e.1 = k := congrArg Prod.fst heq1
      have hd : e.2.days - (now - e.2.set_date) = d := congrArg Prod.snd heq1
      have he2 : e.2 = ent := by
        refine assoc_nodup_mem_unique hnd ?_ hmem
        rw [← hk]
        exact hel
      rw [he2] at hd
      exact ⟨hd.symm, hd ▸ he2 ▸ hc⟩
    · rw [if_neg hc] at heq
      cases heq
  · rintro ⟨rfl, h1, h2⟩
    exact List.mem_filterMap.mpr ⟨(k, ent), hmem, by simp [h1, h2]⟩

theorem check_key_expirations_boundary_witness :
    (("a".toList, (30 : Int)) ∈
      check_key_expirations ⟨some [("a".toList, ⟨30, 0⟩), ("b".toList, ⟨0, 0⟩),
        ("c".toList, ⟨31, 0⟩)]⟩ 0) ∧
    (("b".toList, (0 : Int)) ∈
      check_key_expirations ⟨some [("a".toList, ⟨30, 0⟩), ("b".toList, ⟨0, 0⟩),
        ("c".toList, ⟨31, 0⟩)]⟩ 0 → False) ∧
    (("c".toList, (31 : Int)) ∈
      check_key_expirations ⟨some [("a".toList, ⟨30, 0⟩), ("b".toList, ⟨0, 0⟩),
        ("c".toList, ⟨31, 0⟩)]⟩ 0 → False) := by
  refine ⟨?_, fun hb => ?_, fun hc => ?_⟩
  · exact (check_key_expirations_boundary _ 0 _ "a".toList ⟨30, 0⟩ rfl (by decide)
      (by decide) 30).mpr (by decide)
  · have := (check_key_expirations_boundary _ 0 _ "b".toList ⟨0, 0⟩ rfl (by decide)
      (by decide) 0).mp hb
    omega
  · have := (check_key_expirations_boundary _ 0 _ "c".toList ⟨31, 0⟩ rfl (by decide)
      (by decide) 31).mp hc
    omega

/-- C5 (divergence witness): `set_key_expiration` performs no range
validation: called with `days = -1` (the input the repository's own test
suite expects to raise) it records the entry and reports success, even
though `validate_expiration_days` classifies `-1` as a validation
error. -/
theorem set_key_expiration_accepts_invalid_days :
    (set_key_expiration ⟨none⟩ "test_key".toList (-1) 0).2.1 = true ∧
    assocGet ((set_key_expiration ⟨none⟩ "test_key".toList (-1) 0).1.key_expiration.getD [])
      "test_key".toList = some ⟨-1, 0⟩ ∧
    validate_expiration_days (-1) =
      Except.error "Expiration days must be positive".toList :=
  ⟨rfl, by decide, rfl⟩

theorem create_key_exists_eq (gen : Generator) (agentOk : Bool) (fs : FS)
    (d n kt : Str) (cm : Option Str) (hex : fsExists fs (pathJoin d n) = true) :
    create_key gen agentOk fs d n kt cm =
      { fs := fs, success := false, message := "Key already exists".toList,
        genInvoked := false } := by
  unfold create_key
  simp [hex]

theorem create_key_fail_fs (gen : Generator) (agentOk : Bool) (fs : FS)
    (d n kt : Str) (cm : Option Str)
    (h : (create_key gen agentOk fs d n kt cm).success = false) :
    (create_key gen agentOk fs d n kt cm).fs = fs := by
  unfold create_key at h ⊢
  by_cases hex : fsExists fs (pathJoin d n) = true
  · simp [hex]
  · cases hgen : gen kt cm with
    | none => simp [hex, hgen]
    | some pr => simp [hex, hgen] at h

theorem create_key_success_exists (gen : Generator) (agentOk : Bool) (fs : FS)
    (d n kt : Str) (cm : Option Str)
    (h : (create_key gen agentOk fs d n kt cm).success = true) :
    fsExists (create_key gen agentOk fs d n kt cm).fs (pathJoin d n) = true := by
  unfold create_key at h ⊢
  by_cases hex : fsExists fs (pathJoin d n) = true
  · simp [hex] at h
  · cases hgen : gen kt cm with
    | none => simp [hex, hgen] at h
    | some pr =>
      obtain ⟨p1, p2⟩ := pr
      simp only [hex, hgen, if_neg, Bool.false_eq_true, not_false_eq_true]
      rw [fsExists_fix_permissions]
      have hne : pathJoin d n ≠ pathJoin d n ++ ".pub".toList :=
        ne_append_right _ _ (by decide)
      simp only [fsExists]
      rw [assocGet_assocSet_ne _ _ _ _ hne, assocGet_assocSet_self]
      rfl

/-- C2: for every name whose target key path already exists, `create_key`
fails immediately with the message `Key already exists`, without
invoking the key generator, and leaves the filesystem (in particular the
existing key's private and public files) untouched; consequently a
second `create_key` with the name of a successful first call fails the
same way. -/
theorem create_key_already_exists :
    (∀ (gen : Generator) (agentOk : Bool) (fs : FS) (d n kt : Str) (cm : Option Str),
      fsExists fs (pathJoin d n) = true →
      create_key gen agentOk fs d n kt cm =
        { fs := fs, success := false, message := "Key already exists".toList,
          genInvoked := false }) ∧
    (∀ (gen gen' : Generator) (agentOk agentOk' : Bool) (fs : FS) (d n kt kt' : Str)
      (cm cm' : Option Str),
      (create_key gen agentOk fs d n kt cm).success = true →
      create_key gen' agentOk' (create_key gen agentOk fs d n kt cm).fs d n kt' cm' =
        { fs := (create_key gen agentOk fs d n kt cm).fs, success := false,
          message := "Key already exists".toList, genInvoked := false }) :=
  ⟨fun gen agentOk fs d n kt cm hex => create_key_exists_eq gen agentOk fs d n kt cm hex,
   fun gen gen' agentOk agentOk' fs d n kt kt' cm cm' hsucc =>
     create_key_exists_eq gen' agentOk' _ d n kt' cm'
       (create_key_success_exists gen agentOk fs d n kt cm hsucc)⟩

theorem create_key_already_exists_witness :
    fsExists [(pathJoin "/h".toList "id_rsa".toList, FileData.mk "K".toList 0o600)]
        (pathJoin "/h".toList "id_rsa".toList) = true ∧
    create_key (fun _ _ => none) true
        [(pathJoin "/h".toList "id_rsa".toList, FileData.mk "K".toList 0o600)]
        "/h".toList "id_rsa".toList "rsa".toList none =
      { fs := [(pathJoin "/h".toList "id_rsa".toList, FileData.mk "K".toList 0o600)],
        success := false, message := "Key already exists".toList, genInvoked := false } ∧
    (create_key (fun _ _ => some (⟨"NK".toList, 0⟩, ⟨"NP".toList, 0⟩)) true [] "/h".toList
        "id_rsa".toList "rsa".toList none).success = true ∧
    create_key (fun _ _ => none) true
        (create_key (fun _ _ => some (⟨"NK".toList, 0⟩, ⟨"NP".toList, 0⟩)) true [] "/h".toList
          "id_rsa".toList "rsa".toList none).fs "/h".toList "id_rsa".toList "rsa".toList none =
      { fs := (create_key (fun _ _ => some (⟨"NK".toList, 0⟩, ⟨"NP".toList, 0⟩)) true []
          "/h".toList "id_rsa".toList "rsa".toList none).fs, success := false,
        message := "Key already exists".toList, genInvoked := false } := by
  refine ⟨by decide, ?_, by decide, ?_⟩
  · exact create_key_already_exists.1 _ _ _ _ _ _ _ (by decide)
  · exact create_key_already_exists.2 _ _ _ _ _ _ _ _ _ _ _ (by decide)

theorem mem_list_keys (fs : FS) (d n : Str) (f : FileData)
    (hget : assocGet fs (pathJoin d n) = some f)
    (hpre : startsWithL n "id_".toList = true)
    (hslash : hasChar n '/' = false)
    (hsuf : pathSuffixL n = [])
    (hsk : n ≠ "id_ed25519_sk".toList) :
    pathJoin d n ∈ list_keys fs d := by
  unfold list_keys
  refine List.mem_map.mpr ⟨(pathJoin d n, f), ?_, rfl⟩
  refine List.mem_filter.mpr ⟨mem_of_assocGet_eq_some hget, ?_⟩
  have hsplit : pathJoin d n = (d ++ ['/']) ++ n := by simp [pathJoin]
  have h1 : startsWithL (pathJoin d n) (d ++ ['/']) = true := by
    rw [hsplit]
    exact startsWithL_append _ _
  have h2 : (pathJoin d n).drop (d.length + 1) = n := by
    rw [hsplit]
    have hl : (d ++ ['/']).length = d.length + 1 := by simp
    rw [← hl, List.drop_left]
  have h3 : pathSuffixL (pathJoin d n) = [] := by rw [pathSuffixL_join d n hslash, hsuf]
  simp only [h1, h2, h3, hpre, hslash]
  simp only [Bool.and_eq_true]
  simp
  intro hh
  exact hsk (by simpa using hh)

/-- C8 (amended): for every name accepted by `validate_key_name` that
additionally has no dotted extension and is not the excluded special
name `id_ed25519_sk`, a successful `create_key` followed immediately by
`list_keys` yields a list that includes the new key's path. (The
original claim, quantified over all validated names, fails: see the
counterexample `create_key_sk_missing_from_list`.) -/
theorem create_key_then_list_keys (gen : Generator) (agentOk : Bool) (fs : FS)
    (d n kt : Str) (cm : Option Str)
    (hvalid : validate_key_name n = true)
    (hsuf : pathSuffixL n = [])
    (hsk : n ≠ "id_ed25519_sk".toList)
    (hsucc : (create_key gen agentOk fs d n kt cm).success = true) :
    pathJoin d n ∈ list_keys (create_key gen agentOk fs d n kt cm).fs d := by
  have hcond : ¬ ((isInfixL "..".toList n || hasChar n '/' || hasChar n '\\') = true) := by
    intro hc
    unfold validate_key_name at hvalid
    rw [if_pos hc] at hvalid
    cases hvalid
  have hslash : hasChar n '/' = false := by
    cases hh : hasChar n '/' with
    | false => rfl
    | true => exact absurd (by simp [hh]) hcond
  have hpre : startsWithL n "id_".toList = true := by
    unfold validate_key_name at hvalid
    rw [if_neg hcond] at hvalid
    simp only [List.any_eq_true] at hvalid
    obtain ⟨pre, hpmem, hst⟩ := hvalid
    have hpp : startsWithL pre "id_".toList = true := by
      simp only [List.mem_cons, List.not_mem_nil, or_false] at hpmem
      rcases hpmem with rfl | rfl | rfl | rfl <;> decide
    exact startsWithL_trans hst hpp
  have hex := create_key_success_exists gen agentOk fs d n kt cm hsucc
  obtain ⟨f, hf⟩ := Option.isSome_iff_exists.mp (by rwa [fsExists] at hex)
  exact mem_list_keys _ _ _ _ hf hpre hslash hsuf hsk

theorem create_key_then_list_keys_witness :
    validate_key_name "id_ed25519".toList = true ∧
    pathSuffixL "id_ed25519".toList = [] ∧
    (create_key (fun _ _ => some (⟨"K".toList, 0⟩, ⟨"P".toList, 0⟩)) true [] "/h".toList
      "id_ed25519".toList "ed25519".toList none).success = true ∧
    pathJoin "/h".toList "id_ed25519".toList ∈
      list_keys (create_key (fun _ _ => some (⟨"K".toList, 0⟩, ⟨"P".toList, 0⟩)) true []
        "/h".toList "id_ed25519".toList "ed25519".toList none).fs "/h".toList := by
  refine ⟨by decide, by decide, by decide, ?_⟩
  exact create_key_then_list_keys _ _ _ _ _ _ _ (by decide) (by decide) (by decide) (by decide)

/-- C8 (counterexample to the original claim): `id_ed25519_sk` passes
`validate_key_name` and is created successfully, yet `list_keys` omits
it. -/
theorem create_key_sk_missing_from_list :
    validate_key_name "id_ed25519_sk".toList = true ∧
    (create_key (fun _ _ => some (⟨"K".toList, 0o600⟩, ⟨"P".toList, 0o644⟩)) true []
      "/h/.ssh".toList "id_ed25519_sk".toList "ed25519".toList none).success = true ∧
    pathJoin "/h/.ssh".toList "id_ed25519_sk".toList ∉
      list_keys (create_key (fun _ _ => some (⟨"K".toList, 0o600⟩, ⟨"P".toList, 0o644⟩)) true []
        "/h/.ssh".toList "id_ed25519_sk".toList "ed25519".toList none).fs "/h/.ssh".toList :=
  ⟨by decide, by decide, by decide⟩

/-- C3 (divergence witness): `create_key` never invokes
`validate_key_name`: for the traversal name `../../evil` — which
`validate_key_name` rejects — `create_key` still builds the path
`<ssh_dir>/../../evil`, invokes the generator, writes the key outside
the managed directory and reports success. -/
theorem create_key_skips_name_validation :
    validate_key_name "../../evil".toList = false ∧
    (create_key (fun _ _ => some (⟨"K".toList, 0o600⟩, ⟨"P".toList, 0o644⟩)) true []
      "/home/user/.ssh".toList "../../evil".toList "ed25519".toList none).success = true ∧
    (create_key (fun _ _ => some (⟨"K".toList, 0o600⟩, ⟨"P".toList, 0o644⟩)) true []
      "/home/user/.ssh".toList "../../evil".toList "ed25519".toList none).genInvoked = true ∧
    fsExists (create_key (fun _ _ => some (⟨"K".toList, 0o600⟩, ⟨"P".toList, 0o644⟩)) true []
      "/home/user/.ssh".toList "../../evil".toList "ed25519".toList none).fs
      (pathJoin "/home/user/.ssh".toList "../../evil".toList) = true := by
  refine ⟨by decide, ?_, ?_, ?_⟩ <;> decide

/-- C1: for every key path, if the regeneration step inside `rotate_key`
(the inner `create_key` call, performed after the key has been renamed
to its timestamped backup) reports failure, then afterwards the original
private key file exists under its original name with its original,
unchanged content — the backup is renamed back — and `rotate_key`
reports failure. -/
theorem rotate_key_restores_on_failure (gen : Generator) (agentOk : Bool) (fs : FS)
    (d p ts : Str) (f : FileData)
    (hexist : assocGet fs p = some f)
    (hfail : (rotateCreateStep gen agentOk fs d p ts).success = false) :
    assocGet (rotate_key gen agentOk fs d p ts).fs p = some f ∧
    (rotate_key gen agentOk fs d p ts).success = false := by
  have hinfo : ∃ i, get_key_info fs p = some i := by
    unfold get_key_info
    rw [hexist]
    cases assocGet fs (p ++ ".pub".toList) <;> exact ⟨_, rfl⟩
  obtain ⟨i, hi⟩ := hinfo
  have hren : renameF fs p (rotate_backup_path p ts) =
      some (assocSet (assocDel fs p) (rotate_backup_path p ts) f) := by
    unfold renameF
    rw [hexist]
  have hstep : rotateCreateStep gen agentOk fs d p ts =
      create_key gen agentOk (assocSet (assocDel fs p) (rotate_backup_path p ts) f) d
        (pathNameL p) (i.type.getD "ed25519".toList) i.comment := by
    unfold rotateCreateStep
    rw [hren, hi]
  have hcfail : (create_key gen agentOk
      (assocSet (assocDel fs p) (rotate_backup_path p ts) f) d (pathNameL p)
      (i.type.getD "ed25519".toList) i.comment).success = false := by
    rw [← hstep]
    exact hfail
  have hcfs := create_key_fail_fs _ _ _ _ _ _ _ hcfail
  have hback : assocGet (rotateCreateStep gen agentOk fs d p ts).fs
      (rotate_backup_path p ts) = some f := by
    rw [hstep, hcfs]
    exact assocGet_assocSet_self _ _ _
  have hren2 : renameF (rotateCreateStep gen agentOk fs d p ts).fs
      (rotate_backup_path p ts) p =
      some (assocSet (assocDel (rotateCreateStep gen agentOk fs d p ts).fs
        (rotate_backup_path p ts)) p f) := by
    unfold renameF
    rw [hback]
  unfold rotate_key
  rw [hi]
  simp only [hren, hfail, Bool.false_eq_true, if_false, hren2]
  exact ⟨assocGet_assocSet_self _ _ _, trivial⟩

theorem rotate_key_restores_on_failure_witness :
    assocGet [("/h/.ssh/id_rsa".toList, FileData.mk "OLD".toList 0o600)]
      "/h/.ssh/id_rsa".toList = some (FileData.mk "OLD".toList 0o600) ∧
    (rotateCreateStep (fun _ _ => none) true
      [("/h/.ssh/id_rsa".toList, FileData.mk "OLD".toList 0o600)]
      "/h/.ssh".toList "/h/.ssh/id_rsa".toList "TS".toList).success = false ∧
    assocGet (rotate_key (fun _ _ => none) true
      [("/h/.ssh/id_rsa".toList, FileData.mk "OLD".toList 0o600)]
      "/h/.ssh".toList "/h/.ssh/id_rsa".toList "TS".toList).fs "/h/.ssh/id_rsa".toList =
      some (FileData.mk "OLD".toList 0o600) ∧
    (rotate_key (fun _ _ => none) true
      [("/h/.ssh/id_rsa".toList, FileData.mk "OLD".toList 0o600)]
      "/h/.ssh".toList "/h/.ssh/id_rsa".toList "TS".toList).success = false := by
  have hmain := rotate_key_restores_on_failure (fun _ _ => none) true
    [("/h/.ssh/id_rsa".toList, FileData.mk "OLD".toList 0o600)]
    "/h/.ssh".toList "/h/.ssh/id_rsa".toList "TS".toList
    (FileData.mk "OLD".toList 0o600) (by decide) (by decide)
  exact ⟨by decide, by decide, hmain.1, hmain.2⟩

/-- C7: for every private key path (a directory entry whose suffix is
not `.pub`) such that both the private key file and its sibling `.pub`
file exist, after `fix_permissions` returns success `check_permissions`
returns true for the private key path (mode 0o600) and for the sibling
public key path (mode 0o644). -/
theorem fix_permissions_then_check (fs : FS) (d n : Str) (f g : FileData)
    (hn : n ≠ [])
    (hslash : hasChar n '/' = false)
    (hsuffix : pathSuffixL (pathJoin d n) ≠ ".pub".toList)
    (hpriv : assocGet fs (pathJoin d n) = some f)
    (hpub : assocGet fs (pathJoin d n ++ ".pub".toList) = some g) :
    (fix_permissions fs (pathJoin d n)).2 = true ∧
    check_permissions (fix_permissions fs (pathJoin d n)).1 (pathJoin d n) = true ∧
    check_permissions (fix_permissions fs (pathJoin d n)).1
      (pathJoin d n ++ ".pub".toList) = true := by
  have hne1 : pathJoin d n ≠ pathJoin d n ++ ".pub".toList :=
    ne_append_right _ _ (by decide)
  have hpar : pathParentL (pathJoin d n) = if d = [] then ['/'] else d :=
    pathParentL_join d n hslash
  have hparlen : (pathParentL (pathJoin d n)).length < (pathJoin d n).length := by
    rw [hpar]
    have hnlen : 0 < n.length := List.length_pos.mpr hn
    by_cases hd : d = []
    · subst hd
      simpa [pathJoin] using hnlen
    · rw [if_neg hd]
      simp [pathJoin]
  have hne2 : pathJoin d n ≠ pathParentL (pathJoin d n) := by
    intro hh
    rw [← hh] at hparlen
    omega
  have hne3 : pathJoin d n ++ ".pub".toList ≠ pathParentL (pathJoin d n) := by
    intro hh
    have hlen : (pathJoin d n ++ ".pub".toList).length = (pathJoin d n).length + 4 := by
      simp
    rw [← hh, hlen] at hparlen
    omega
  have hexp : fsExists fs (pathJoin d n) = true := by simp [fsExists, hpriv]
  have hexpub : fsExists (chmodT fs (pathJoin d n) 0o600)
      (pathJoin d n ++ ".pub".toList) = true := by
    rw [fsExists_chmodT]
    simp only [fsExists]
    rw [hpub]
    rfl
  have key1 : assocGet (fix_permissions fs (pathJoin d n)).1 (pathJoin d n) =
      some { f with mode := 0o600 } := by
    unfold fix_permissions
    simp only [hexp, hexpub, if_true]
    by_cases hdir : fsExists (chmodT (chmodT fs (pathJoin d n) 0o600)
        (pathJoin d n ++ ".pub".toList) 0o644) (pathParentL (pathJoin d n)) = true
    · rw [if_pos hdir, assocGet_chmodT_ne _ _ _ _ hne2,
        assocGet_chmodT_ne _ _ _ _ hne1, assocGet_chmodT_self _ _ _ _ hpriv]
    · rw [if_neg hdir, assocGet_chmodT_ne _ _ _ _ hne1,
        assocGet_chmodT_self _ _ _ _ hpriv]
  have key2 : assocGet (fix_permissions fs (pathJoin d n)).1
      (pathJoin d n ++ ".pub".toList) = some { g with mode := 0o644 } := by
    unfold fix_permissions
    simp only [hexp, hexpub, if_true]
    have hgetpub : assocGet (chmodT fs (pathJoin d n) 0o600)
        (pathJoin d n ++ ".pub".toList) = some g := by
      rw [assocGet_chmodT_ne _ _ _ _ (Ne.symm hne1)]
      exact hpub
    by_cases hdir : fsExists (chmodT (chmodT fs (pathJoin d n) 0o600)
        (pathJoin d n ++ ".pub".toList) 0o644) (pathParentL (pathJoin d n)) = true
    · rw [if_pos hdir, assocGet_chmodT_ne _ _ _ _ hne3,
        assocGet_chmodT_self _ _ _ _ hgetpub]
    · rw [if_neg hdir, assocGet_chmodT_self _ _ _ _ hgetpub]
  refine ⟨rfl, ?_, ?_⟩
  · unfold check_permissions
    rw [key1]
    show (if (0o600 : Nat) =
        (if pathSuffixL (pathJoin d n) = ".pub".toList then 0o644 else 0o600)
      then true else false) = true
    rw [if_neg hsuffix]
    rfl
  · unfold check_permissions
    rw [key2]
    have hnm : pathNameL (pathJoin d n) ≠ [] := by
      rw [pathNameL_join d n hslash]
      exact hn
    show (if (0o644 : Nat) =
        (if pathSuffixL (pathJoin d n ++ ".pub".toList) = ".pub".toList then 0o644 else 0o600)
      then true else false) = true
    rw [pathSuffixL_append_pub _ hnm, if_pos rfl]
    rfl

theorem fix_permissions_then_check_witness :
    (("id_rsa".toList : Str) ≠ []) ∧
    hasChar "id_rsa".toList '/' = false ∧
    pathSuffixL (pathJoin "/h/.ssh".toList "id_rsa".toList) ≠ ".pub".toList ∧
    (fix_permissions
      [(pathJoin "/h/.ssh".toList "id_rsa".toList, FileData.mk "K".toList 0o644),
       (pathJoin "/h/.ssh".toList "id_rsa".toList ++ ".pub".toList,
         FileData.mk "P".toList 0o600)]
      (pathJoin "/h/.ssh".toList "id_rsa".toList)).2 = true ∧
    check_permissions (fix_permissions
      [(pathJoin "/h/.ssh".toList "id_rsa".toList, FileData.mk "K".toList 0o644),
       (pathJoin "/h/.ssh".toList "id_rsa".toList ++ ".pub".toList,
         FileData.mk "P".toList 0o600)]
      (pathJoin "/h/.ssh".toList "id_rsa".toList)).1
      (pathJoin "/h/.ssh".toList "id_rsa".toList) = true ∧
    check_permissions (fix_permissions
      [(pathJoin "/h/.ssh".toList "id_rsa".toList, FileData.mk "K".toList 0o644),
       (pathJoin "/h/.ssh".toList "id_rsa".toList ++ ".pub".toList,
         FileData.mk "P".toList 0o600)]
      (pathJoin "/h/.ssh".toList "id_rsa".toList)).1
      (pathJoin "/h/.ssh".toList "id_rsa".toList ++ ".pub".toList) = true := by
  have hmain := fix_permissions_then_check
    [(pathJoin "/h/.ssh".toList "id_rsa".toList, FileData.mk "K".toList 0o644),
     (pathJoin "/h/.ssh".toList "id_rsa".toList ++ ".pub".toList,
       FileData.mk "P".toList 0o600)]
    "/h/.ssh".toList "id_rsa".toList (FileData.mk "K".toList 0o644)
    (FileData.mk "P".toList 0o600) (by decide) (by decide) (by decide) (by decide) (by decide)
  exact ⟨by decide, by decide, by decide, hmain.1, hmain.2.1, hmain.2.2⟩

/-! Lemmas about the Python string helpers used by the SSH config
parser. -/

theorem dropWhile_of_head_false {p : Char → Bool} {c : Char} {t : Str}
    (h : p c = false) : (c :: t).dropWhile p = c :: t := by
  simp [List.dropWhile_cons, h]

theorem front_clean {s : Str} (hh : ∀ c, s.head? = some c → pyIsSpace c = false) :
    s.dropWhile pyIsSpace = s := by
  cases s with
  | nil => rfl
  | cons c t => exact dropWhile_of_head_false (hh c rfl)

theorem back_clean {s : Str} (hl : ∀ c, s.getLast? = some c → pyIsSpace c = false) :
    (s.reverse.dropWhile pyIsSpace).reverse = s := by
  rcases List.eq_nil_or_concat s with rfl | ⟨t, c, rfl⟩
  · rfl
  · have hc : pyIsSpace c = false := hl c (by simp)
    have hrev : (t.concat c).reverse = c :: t.reverse := by simp
    rw [hrev, dropWhile_of_head_false hc]
    simp

theorem pyStrip_eq_self {s : Str}
    (hh : ∀ c, s.head? = some c → pyIsSpace c = false)
    (hl : ∀ c, s.getLast? = some c → pyIsSpace c = false) : pyStrip s = s := by
  unfold pyStrip
  rw [front_clean hh, back_clean hl]

theorem pyStrip_indent {s : Str}
    (hh : ∀ c, s.head? = some c → pyIsSpace c = false)
    (hl : ∀ c, s.getLast? = some c → pyIsSpace c = false) :
    pyStrip ("    ".toList ++ s) = s := by
  unfold pyStrip
  have hsp : pyIsSpace ' ' = true := by decide
  have h4 : ("    ".toList ++ s).dropWhile pyIsSpace =
      s.dropWhile pyIsSpace := by
    show (' ' :: ' ' :: ' ' :: ' ' :: s).dropWhile pyIsSpace =
      s.dropWhile pyIsSpace
    simp [List.dropWhile_cons, hsp]
  rw [h4, front_clean hh, back_clean hl]

theorem pyWordsAux_cons_not_ws {c : Char} {s acc : Str} (h : pyIsSpace c = false) :
    pyWordsAux (c :: s) acc = pyWordsAux s (c :: acc) := by
  simp [pyWordsAux, h]

theorem pyWordsAux_cons_ws_ne {c : Char} {s acc : Str} (h : pyIsSpace c = true)
    (ha : acc ≠ []) :
    pyWordsAux (c :: s) acc = acc.reverse :: pyWordsAux s [] := by
  simp [pyWordsAux, h, ha]

theorem pyWordsAux_no_ws {s : Str} (h : ∀ c ∈ s, pyIsSpace c = false) :
    ∀ acc : Str, pyWordsAux s acc =
      if acc.reverse ++ s = [] then [] else [acc.reverse ++ s] := by
  induction s with
  | nil =>
    intro acc
    by_cases ha : acc = [] <;> simp [pyWordsAux, ha]
  | cons c t ih =>
    intro acc
    rw [pyWordsAux_cons_not_ws (h c (List.mem_cons_self _ _))]
    rw [ih (fun x hx => h x (List.mem_cons_of_mem _ hx)) (c :: acc)]
    have hx : (c :: acc).reverse ++ t = acc.reverse ++ c :: t := by simp
    rw [hx]

theorem pyWords_host (h : Str) (hne : h ≠ [])
    (hws : ∀ c ∈ h, pyIsSpace c = false) :
    pyWords ("Host ".toList ++ h) = ["Host".toList, h] := by
  unfold pyWords
  show pyWordsAux ('H' :: 'o' :: 's' :: 't' :: ' ' :: h) [] = _
  rw [pyWordsAux_cons_not_ws (by decide), pyWordsAux_cons_not_ws (by decide),
    pyWordsAux_cons_not_ws (by decide), pyWordsAux_cons_not_ws (by decide),
    pyWordsAux_cons_ws_ne (by decide) (by decide), pyWordsAux_no_ws hws []]
  have hne2 : ([] : Str).reverse ++ h ≠ [] := by simpa using hne
  rw [if_neg hne2]
  rfl

theorem splitFirstSpace_eq (k v : Str) (hk : ∀ c ∈ k, ¬ c = ' ') :
    splitFirstSpace (k ++ ' ' :: v) = (k, v) := by
  have hk' : ∀ c ∈ k, (fun c => (c ≠ ' ' : Bool)) c = true := fun c hc => by
    simpa using hk c hc
  unfold splitFirstSpace
  rw [takeWhile_append_all (' ' :: v) hk', dropWhile_append_all (' ' :: v) hk']
  simp [List.takeWhile_cons, List.dropWhile_cons]

theorem startsWithL_cons_ne {c d : Char} (s p : Str) (h : ¬ c = d) :
    startsWithL (c :: s) (d :: p) = false := by
  simp [startsWithL, h]

theorem lowerL_append (s t : Str) : lowerL (s ++ t) = lowerL s ++ lowerL t := by
  simp [lowerL]

/-- A serialized host line is recognized by the parser's host test. -/
theorem hostLine_is_host (h : Str) :
    startsWithL (lowerL ("Host ".toList ++ h)) "host ".toList = true := by
  rw [lowerL_append]
  have : lowerL "Host ".toList = "host ".toList := by decide
  rw [this]
  exact startsWithL_append _ _

/-- Every code point in Python's whitespace class lies outside 33..132. -/
theorem pyIsSpace_eq_false_of_range {c : Char} (h1 : 33 ≤ c.toNat) (h2 : c.toNat ≤ 132) :
    pyIsSpace c = false := by
  cases hsp : pyIsSpace c
  · rfl
  · exfalso
    simp only [pyIsSpace, Bool.or_eq_true, Bool.and_eq_true, decide_eq_true_eq] at hsp
    omega

/-- A character of the restricted host pattern class is not Python whitespace:
its code point lies between 42 and 122. -/
theorem hostChar_not_ws {c : Char}
    (h : ((65 ≤ c.toNat && c.toNat ≤ 90) || (97 ≤ c.toNat && c.toNat ≤ 122) ||
      (48 ≤ c.toNat && c.toNat ≤ 57) || c = '-' || c = '_' || c = '.' || c = '*') = true) :
    pyIsSpace c = false := by
  apply pyIsSpace_eq_false_of_range <;>
  · simp only [Bool.or_eq_true, Bool.and_eq_true, decide_eq_true_eq] at h
    rcases h with ((((((h | h) | h) | rfl) | rfl) | rfl) | rfl) <;> first | omega | decide

theorem validate_host_pattern_not_ws {h : Str} (hv : validate_host_pattern h = true) :
    ∀ c ∈ h, pyIsSpace c = false := by
  intro c hc
  have := (by simpa [validate_host_pattern] using hv :
    h ≠ [] ∧ ∀ c ∈ h, ((65 ≤ c.toNat && c.toNat ≤ 90) || (97 ≤ c.toNat && c.toNat ≤ 122) ||
      (48 ≤ c.toNat && c.toNat ≤ 57) || c = '-' || c = '_' || c = '.' || c = '*')
      = true)
  exact hostChar_not_ws (this.2 c hc)

theorem validate_host_pattern_ne_nil {h : Str} (hv : validate_host_pattern h = true) :
    h ≠ [] := by
  have := (by simpa [validate_host_pattern] using hv :
    h ≠ [] ∧ ∀ c ∈ h, ((65 ≤ c.toNat && c.toNat ≤ 90) || (97 ≤ c.toNat && c.toNat ≤ 122) ||
      (48 ≤ c.toNat && c.toNat ≤ 57) || c = '-' || c = '_' || c = '.' || c = '*')
      = true)
  exact this.1

theorem mem_of_getLast?_eq_some {l : Str} {a : Char} (h : l.getLast? = some a) :
    a ∈ l := by
  rcases List.eq_nil_or_concat l with rfl | ⟨t, c, rfl⟩
  · cases h
  · have : c = a := by
      have hc : (t.concat c).getLast? = some c := by simp
      rw [hc] at h
      injection h
    subst this
    simp

/-! Single-line stepping lemmas for the SSH config parser. -/

theorem parseLoop_blank (ls : List Str) (cfg : SshConfig) (cur : Option Str) :
    parseLoop ([] :: ls) cfg cur = parseLoop ls cfg cur := rfl

theorem parseLoop_host_line (h : Str) (ls : List Str) (cfg : SshConfig) (cur : Option Str)
    (hne : h ≠ []) (hws : ∀ c ∈ h, pyIsSpace c = false) :
    parseLoop (("Host ".toList ++ h) :: ls) cfg cur =
      parseLoop ls (assocSet cfg h []) (some h) := by
  have hstrip : pyStrip ("Host ".toList ++ h) = "Host ".toList ++ h := by
    apply pyStrip_eq_self
    · intro c hc
      have : some 'H' = some c := hc
      injection this with hcc
      rw [← hcc]
      rfl
    · intro c hc
      rw [List.getLast?_append_of_ne_nil _ hne] at hc
      exact hws c (mem_of_getLast?_eq_some hc)
  have hnil : ¬ (("Host ".toList ++ h : Str) = []) := by simp
  have hhash : startsWithL ("Host ".toList ++ h) ['#'] = false := by
    show startsWithL ('H' :: ("ost ".toList ++ h)) ('#' :: []) = false
    exact startsWithL_cons_ne _ _ (by decide)
  have hwords : (pyWords ("Host ".toList ++ h)).getD 1 [] = h := by
    rw [pyWords_host h hne hws]
    rfl
  have hhash2 : startsWithL ('H' :: 'o' :: 's' :: 't' :: ' ' :: h) ['#'] = false :=
    startsWithL_cons_ne _ _ (by decide)
  have hhost2 : startsWithL (lowerL ('H' :: 'o' :: 's' :: 't' :: ' ' :: h))
      ['h', 'o', 's', 't', ' '] = true := hostLine_is_host h
  have hwords2 : (pyWords ('H' :: 'o' :: 's' :: 't' :: ' ' :: h))[1]?.getD [] = h := by
    have hsame : ('H' :: 'o' :: 's' :: 't' :: ' ' :: h) = "Host ".toList ++ h := rfl
    rw [hsame, pyWords_host h hne hws]
    rfl
  show parseLoop (("Host ".toList ++ h) :: ls) cfg cur = _
  simp only [parseLoop, hstrip]
  simp [hnil, hhash2, hhost2, hwords2]

theorem parseLoop_opt_line (k v : Str) (ls : List Str) (cfg : SshConfig) (h : Str)
    (hkname : wfOptName k = true) (hv : wfValue v = true) :
    parseLoop (("    ".toList ++ (k ++ ' ' :: v)) :: ls) cfg (some h) =
      parseLoop ls (setHostOpt cfg h k v) (some h) := by
  have hvparts := (by simpa [wfValue, Bool.and_eq_true] using hv :
    ((¬ v.isEmpty = true ∧ ¬ hasChar v '\n' = true) ∧ ¬ hasChar v '\r' = true) ∧
      ((v.getLast?.map (fun c => !pyIsSpace c)).getD false) = true)
  have hvne : v ≠ [] := by
    intro hh
    subst hh
    exact hvparts.1.1.1 rfl
  have hvlast : ∀ c, v.getLast? = some c → pyIsSpace c = false := by
    intro c hc
    have := hvparts.2
    rw [hc] at this
    simpa using this
  have hlast : ∀ c, (k ++ ' ' :: v).getLast? = some c → pyIsSpace c = false := by
    intro c hc
    rw [List.getLast?_append_cons] at hc
    have : ([' '] ++ v).getLast? = some c := hc
    rw [List.getLast?_append_of_ne_nil _ hvne] at this
    exact hvlast c this
  have hkcases := (by simpa [wfOptName, Bool.or_eq_true, decide_eq_true_eq] using hkname :
    (k = "IdentityFile".toList ∨ k = "User".toList) ∨ k = "Port".toList)
  have hspace : hasChar (k ++ ' ' :: v) ' ' = true := by
    simp [hasChar]
  have hsplit : splitFirstSpace (k ++ ' ' :: v) = (k, v) := by
    apply splitFirstSpace_eq
    rcases hkcases with (rfl | rfl) | rfl <;> decide
  have hstrip : pyStrip ("    ".toList ++ (k ++ ' ' :: v)) = k ++ ' ' :: v := by
    apply pyStrip_indent
    · intro c hc
      rcases hkcases with (rfl | rfl) | rfl <;>
        · have : some _ = some c := hc
          injection this with hcc
          rw [← hcc]
          rfl
    · exact hlast
  have hnil : ¬ ((k ++ ' ' :: v : Str) = []) := by
    rcases hkcases with (rfl | rfl) | rfl <;> simp
  have hhash : startsWithL (k ++ ' ' :: v) ['#'] = false := by
    rcases hkcases with (rfl | rfl) | rfl <;>
      exact startsWithL_cons_ne _ _ (by decide)
  have hnothost : startsWithL (lowerL (k ++ ' ' :: v)) "host ".toList = false := by
    rcases hkcases with (rfl | rfl) | rfl <;>
      · rw [lowerL_append]
        exact startsWithL_cons_ne _ _ (by decide)
  have hnothost2 : startsWithL (lowerL (k ++ ' ' :: v)) ['h', 'o', 's', 't', ' '] = false :=
    hnothost
  show parseLoop (("    ".toList ++ (k ++ ' ' :: v)) :: ls) cfg (some h) = _
  simp only [parseLoop, hstrip]
  simp [hnil, hhash, hnothost2, hspace, hsplit]

/-! Structural lemmas about the insertion-ordered dictionaries. -/

theorem assocSet_not_mem {α : Type} (l : List (Str × α)) (k : Str) (v : α)
    (h : ∀ e ∈ l, ¬ e.1 = k) : assocSet l k v = l ++ [(k, v)] := by
  induction l with
  | nil => rfl
  | cons e t ih =>
    simp [assocSet, h e (List.mem_cons_self _ _),
      ih (fun x hx => h x (List.mem_cons_of_mem _ hx))]

theorem map_noop_of_ne (l : SshConfig) (h k v : Str) (hno : ∀ e ∈ l, ¬ e.1 = h) :
    l.map (fun e => if e.1 = h then (h, assocSet e.2 k v) else e) = l := by
  induction l with
  | nil => rfl
  | cons e t ih =>
    simp [if_neg (hno e (List.mem_cons_self _ _)),
      ih (fun x hx => hno x (List.mem_cons_of_mem _ hx))]

theorem setHostOpt_middle (pre post : SshConfig) (h : Str) (opts : List (Str × Str))
    (k v : Str) (hpre : ∀ e ∈ pre, ¬ e.1 = h) (hpost : ∀ e ∈ post, ¬ e.1 = h) :
    setHostOpt (pre ++ (h, opts) :: post) h k v =
      pre ++ (h, assocSet opts k v) :: post := by
  unfold setHostOpt
  rw [List.map_append, List.map_cons, map_noop_of_ne _ _ k v hpre,
    map_noop_of_ne _ _ k v hpost]
  simp

theorem map_fst_assocSet {α : Type} (l : List (Str × α)) (k : Str) (v : α) :
    (assocSet l k v).map Prod.fst =
      if l.any (fun e => e.1 = k) then l.map Prod.fst else l.map Prod.fst ++ [k] := by
  induction l with
  | nil => simp [assocSet]
  | cons e t ih =>
    by_cases he : e.1 = k
    · simp [assocSet, he]
    · by_cases ha : t.any (fun e => e.1 = k) = true <;> simp [assocSet, he, ih, ha]

theorem mem_assocSet {α : Type} {l : List (Str × α)} {k : Str} {v : α} {o : Str × α}
    (h : o ∈ assocSet l k v) : o = (k, v) ∨ o ∈ l := by
  induction l with
  | nil => simpa [assocSet] using h
  | cons e t ih =>
    by_cases he : e.1 = k
    · rw [show assocSet (e :: t) k v = (k, v) :: t by simp [assocSet, he]] at h
      rcases List.mem_cons.mp h with h1 | h2
      · exact Or.inl h1
      · exact Or.inr (List.mem_cons_of_mem _ h2)
    · rw [show assocSet (e :: t) k v = e :: assocSet t k v by simp [assocSet, he]] at h
      rcases List.mem_cons.mp h with h1 | h2
      · exact Or.inr (h1 ▸ List.mem_cons_self _ _)
      · rcases ih h2 with h3 | h4
        · exact Or.inl h3
        · exact Or.inr (List.mem_cons_of_mem _ h4)

theorem nodup_keys_assocSet {α : Type} {l : List (Str × α)} (k : Str) (v : α)
    (h : (l.map Prod.fst).Nodup) : ((assocSet l k v).map Prod.fst).Nodup := by
  rw [map_fst_assocSet]
  by_cases ha : l.any (fun e => e.1 = k) = true
  · simp [ha, h]
  · have hk : ¬ k ∈ l.map Prod.fst := by
      intro hx
      obtain ⟨e, he, heq⟩ := List.mem_map.mp hx
      rw [Bool.not_eq_true, List.any_eq_false] at ha
      have := ha e he
      simp [heq] at this
    rw [if_neg ha]
    rw [← List.concat_eq_append]
    exact List.Nodup.concat hk h

theorem keys_split_not_mem {pre post : SshConfig} {h : Str}
    {opts : List (Str × Str)}
    (hnd : ((pre ++ (h, opts) :: post).map Prod.fst).Nodup) :
    (∀ e ∈ pre, ¬ e.1 = h) ∧ (∀ e ∈ post, ¬ e.1 = h) := by
  rw [List.map_append, List.map_cons] at hnd
  obtain ⟨h1, h2, hdisj⟩ := List.nodup_append.mp hnd
  rw [List.nodup_cons] at h2
  constructor
  · intro e he heq
    exact hdisj (List.mem_map.mpr ⟨e, he, heq⟩) (List.mem_cons_self _ _)
  · intro e he heq
    exact h2.1 (heq ▸ List.mem_map.mpr ⟨e, he, rfl⟩)

theorem any_key_of_mem {cfg : SshConfig} {h : Str} {opts : List (Str × Str)}
    (hmem : (h, opts) ∈ cfg) : cfg.any (fun e => e.1 = h) = true := by
  rw [List.any_eq_true]
  exact ⟨(h, opts), hmem, by simp⟩

theorem parseLoop_opts (opts : List (Str × Str)) (tail : List Str) (pre : SshConfig)
    (h : Str) (acc : List (Str × Str))
    (hpre : ∀ e ∈ pre, ¬ e.1 = h)
    (hwf : ∀ o ∈ opts, wfOptName o.1 = true ∧ wfValue o.2 = true)
    (hnd : (acc.map Prod.fst ++ opts.map Prod.fst).Nodup) :
    parseLoop ((opts.map (fun o => "    ".toList ++ (o.1 ++ ' ' :: o.2))) ++ tail)
      (pre ++ (h, acc) :: []) (some h)
    = parseLoop tail (pre ++ (h, acc ++ opts) :: []) (some h) := by
  induction opts generalizing acc with
  | nil => simp
  | cons o os ih =>
    obtain ⟨hname, hval⟩ := hwf o (List.mem_cons_self _ _)
    rw [List.map_cons, List.cons_append, parseLoop_opt_line o.1 o.2 _ _ h hname hval]
    rw [setHostOpt_middle pre [] h acc o.1 o.2 hpre (by simp)]
    have hnotin : ∀ e ∈ acc, ¬ e.1 = o.1 := by
      intro e he heq
      obtain ⟨-, -, hdisj⟩ := List.nodup_append.mp hnd
      exact hdisj (List.mem_map.mpr ⟨e, he, heq⟩) (by simp)
    rw [assocSet_not_mem _ _ _ hnotin]
    have hnd' : ((acc ++ [o]).map Prod.fst ++ os.map Prod.fst).Nodup := by
      have hre : acc.map Prod.fst ++ (o :: os).map Prod.fst =
          (acc ++ [o]).map Prod.fst ++ os.map Prod.fst := by simp
      rw [← hre]
      exact hnd
    have hstep := ih (acc ++ [o])
      (fun x hx => hwf x (List.mem_cons_of_mem _ hx)) hnd'
    rw [show (acc ++ [o]) ++ os = acc ++ o :: os by simp] at hstep
    exact hstep

theorem parseLoop_serialize (rest : SshConfig) (cfgAcc : SshConfig) (cur : Option Str)
    (hwf : ∀ e ∈ rest, validate_host_pattern e.1 = true ∧ (e.2.map Prod.fst).Nodup ∧
      ∀ o ∈ e.2, wfOptName o.1 = true ∧ wfValue o.2 = true)
    (hnd : (rest.map Prod.fst).Nodup)
    (hdisj : ∀ e ∈ rest, ∀ e' ∈ cfgAcc, ¬ e'.1 = e.1) :
    parseLoop (serializeConfig rest) cfgAcc cur = cfgAcc ++ rest := by
  induction rest generalizing cfgAcc cur with
  | nil => simp [serializeConfig, parseLoop]
  | cons e os ih =>
    obtain ⟨hhost, hoptnd, hopts⟩ := hwf e (List.mem_cons_self _ _)
    have hser : serializeConfig (e :: os) =
        ("Host ".toList ++ e.1) ::
          ((e.2.map (fun o => "    ".toList ++ (o.1 ++ ' ' :: o.2))) ++
            ([] :: serializeConfig os)) := by
      simp [serializeConfig]
    rw [hser]
    rw [parseLoop_host_line e.1 _ cfgAcc cur (validate_host_pattern_ne_nil hhost)
      (validate_host_pattern_not_ws hhost)]
    have hnomem : ∀ e' ∈ cfgAcc, ¬ e'.1 = e.1 :=
      fun e' he' => hdisj e (List.mem_cons_self _ _) e' he'
    rw [assocSet_not_mem _ _ _ hnomem]
    rw [show cfgAcc ++ [(e.1, ([] : List (Str × Str)))] =
      cfgAcc ++ (e.1, ([] : List (Str × Str))) :: [] by rfl]
    rw [parseLoop_opts e.2 ([] :: serializeConfig os) cfgAcc e.1 [] hnomem hopts
      (by simpa using hoptnd)]
    rw [parseLoop_blank]
    have hrw : cfgAcc ++ (e.1, [] ++ e.2) :: [] = cfgAcc ++ [e] := by simp
    rw [hrw]
    rw [List.map_cons, List.nodup_cons] at hnd
    have hdisj' : ∀ x ∈ os, ∀ e' ∈ cfgAcc ++ [e], ¬ e'.1 = x.1 := by
      intro x hx e' he' heq
      rcases List.mem_append.mp he' with h1 | h2
      · exact hdisj x (List.mem_cons_of_mem _ hx) e' h1 heq
      · have he2 : e' = e := by simpa using h2
        subst he2
        exact hnd.1 (heq ▸ List.mem_map.mpr ⟨x, hx, rfl⟩)
    rw [ih (cfgAcc ++ [e]) (some e.1)
      (fun x hx => hwf x (List.mem_cons_of_mem _ hx)) hnd.2 hdisj']
    simp

/-- Round trip: parsing a serialized well-formed configuration returns
it unchanged. -/
theorem get_serialize_roundtrip (cfg : SshConfig) (hwf : wfConfig cfg) :
    get_ssh_config (serializeConfig cfg) = cfg := by
  unfold get_ssh_config
  rw [parseLoop_serialize cfg [] none (fun e he => hwf.2 e he) hwf.1 (by simp)]
  simp

/-! Lemmas about the update path. -/

theorem applyUpdate_existing (pre post : SshConfig) (u : UpdateCall)
    (opts : List (Str × Str))
    (hpre : ∀ e ∈ pre, ¬ e.1 = u.host) (hpost : ∀ e ∈ post, ¬ e.1 = u.host) :
    applyUpdate (pre ++ (u.host, opts) :: post) u =
      pre ++ (u.host, applyOpts opts u) :: post := by
  have hany : (pre ++ (u.host, opts) :: post).any (fun e => e.1 = u.host) = true :=
    @any_key_of_mem _ u.host opts (by simp)
  have stage : ∀ (opts2 : List (Str × Str)) (o : Option Str) (name : Str),
      (match o with
       | some k => if k ≠ [] then setHostOpt (pre ++ (u.host, opts2) :: post) u.host name k
                   else pre ++ (u.host, opts2) :: post
       | none => pre ++ (u.host, opts2) :: post)
      = pre ++ (u.host, match o with
         | some k => if k ≠ [] then assocSet opts2 name k else opts2
         | none => opts2) :: post := by
    intro opts2 o name
    cases o with
    | none => rfl
    | some k =>
      show (if k ≠ [] then setHostOpt (pre ++ (u.host, opts2) :: post) u.host name k
          else pre ++ (u.host, opts2) :: post)
        = pre ++ (u.host, if k ≠ [] then assocSet opts2 name k else opts2) :: post
      by_cases hk : k ≠ []
      · rw [if_pos hk, if_pos hk, setHostOpt_middle _ _ _ _ _ _ hpre hpost]
      · rw [if_neg hk, if_neg hk]
  have stageP : ∀ (opts2 : List (Str × Str)) (po : Option Int),
      (match po with
       | some p => if p ≠ 0 then
             setHostOpt (pre ++ (u.host, opts2) :: post) u.host "Port".toList (intRepr p)
           else pre ++ (u.host, opts2) :: post
       | none => pre ++ (u.host, opts2) :: post)
      = pre ++ (u.host, match po with
         | some p => if p ≠ 0 then assocSet opts2 "Port".toList (intRepr p) else opts2
         | none => opts2) :: post := by
    intro opts2 po
    cases po with
    | none => rfl
    | some p =>
      show (if p ≠ 0 then
          setHostOpt (pre ++ (u.host, opts2) :: post) u.host "Port".toList (intRepr p)
        else pre ++ (u.host, opts2) :: post)
        = pre ++ (u.host,
            if p ≠ 0 then assocSet opts2 "Port".toList (intRepr p) else opts2) :: post
      by_cases hp : p ≠ 0
      · rw [if_pos hp, if_pos hp, setHostOpt_middle _ _ _ _ _ _ hpre hpost]
      · rw [if_neg hp, if_neg hp]
  unfold applyUpdate applyOpts
  rw [if_pos hany]
  dsimp only
  rw [stage opts u.key "IdentityFile".toList, stage _ u.user "User".toList,
    stageP _ u.port]

theorem applyUpdate_fresh (cfg : SshConfig) (u : UpdateCall)
    (hno : ∀ e ∈ cfg, ¬ e.1 = u.host) :
    applyUpdate cfg u = cfg ++ (u.host, suppliedOpts u) :: [] := by
  have hany : ¬ (cfg.any (fun e => e.1 = u.host) = true) := by
    rw [Bool.not_eq_true, List.any_eq_false]
    intro e he
    simpa using hno e he
  have hany2 : (cfg ++ (u.host, ([] : List (Str × Str))) :: []).any
      (fun e => e.1 = u.host) = true := @any_key_of_mem _ u.host [] (by simp)
  have hstep : applyUpdate cfg u = applyUpdate (cfg ++ (u.host, []) :: []) u := by
    unfold applyUpdate
    rw [if_neg hany, if_pos hany2]
  rw [hstep, applyUpdate_existing cfg [] u [] hno (by simp)]
  rfl

theorem natReprAux_clean (fuel : Nat) : ∀ (n : Nat), ∀ c ∈ natReprAux fuel n,
    pyIsSpace c = false ∧ ¬ c = '\n' ∧ ¬ c = '\r' := by
  have hdig : ∀ k, k < 10 → (pyIsSpace (Nat.digitChar k) = false ∧
      ¬ Nat.digitChar k = '\n' ∧ ¬ Nat.digitChar k = '\r') := by decide
  induction fuel with
  | zero =>
    intro n c hc
    cases hc
  | succ fuel ih =>
    intro n c hc
    by_cases h10 : n < 10
    · rw [natReprAux, if_pos h10] at hc
      have : c = Nat.digitChar n := by simpa using hc
      subst this
      exact hdig n h10
    · rw [natReprAux, if_neg h10] at hc
      rcases List.mem_append.mp hc with h1 | h2
      · exact ih (n / 10) c h1
      · have : c = Nat.digitChar (n % 10) := by simpa using h2
        subst this
        exact hdig _ (Nat.mod_lt _ (by decide))

theorem natRepr_clean (n : Nat) : ∀ c ∈ natRepr n,
    pyIsSpace c = false ∧ ¬ c = '\n' ∧ ¬ c = '\r' :=
  natReprAux_clean (n + 1) n

theorem natRepr_ne_nil (n : Nat) : natRepr n ≠ [] := by
  rw [natRepr, natReprAux]
  by_cases h10 : n < 10 <;> simp [h10]

theorem intRepr_clean (p : Int) : ∀ c ∈ intRepr p,
    pyIsSpace c = false ∧ ¬ c = '\n' ∧ ¬ c = '\r' := by
  intro c hc
  unfold intRepr at hc
  by_cases hp : p < 0
  · rw [if_pos hp] at hc
    rcases List.mem_cons.mp hc with rfl | h2
    · exact ⟨by decide, by decide, by decide⟩
    · exact natRepr_clean _ c h2
  · rw [if_neg hp] at hc
    exact natRepr_clean _ c hc

theorem intRepr_ne_nil (p : Int) : intRepr p ≠ [] := by
  unfold intRepr
  by_cases hp : p < 0
  · simp [hp]
  · simp [hp, natRepr_ne_nil]

theorem wfValue_of_clean {v : Str} (hne : v ≠ [])
    (hclean : ∀ c ∈ v, pyIsSpace c = false ∧ ¬ c = '\n' ∧ ¬ c = '\r') :
    wfValue v = true := by
  unfold wfValue
  simp only [Bool.and_eq_true, Bool.not_eq_true']
  refine ⟨⟨⟨?_, ?_⟩, ?_⟩, ?_⟩
  · cases hv : v with
    | nil => exact absurd hv hne
    | cons c t => rfl
  · rw [hasChar, List.any_eq_false]
    intro c hc
    simp [(hclean c hc).2.1]
  · rw [hasChar, List.any_eq_false]
    intro c hc
    simp [(hclean c hc).2.2]
  · rcases List.eq_nil_or_concat v with rfl | ⟨t, c, rfl⟩
    · exact absurd rfl hne
    · have hlast : (t.concat c).getLast? = some c := by simp
      rw [hlast]
      have := (hclean c (by simp)).1
      simp [this]

theorem wfValue_intRepr (p : Int) : wfValue (intRepr p) = true :=
  wfValue_of_clean (intRepr_ne_nil p) (intRepr_clean p)

theorem wfOpts_step {l : List (Str × Str)} {name v : Str} (hP : wfOpts l)
    (h3 : wfOptName name = true) (h4 : wfValue v = true) :
    wfOpts (assocSet l name v) := by
  refine ⟨nodup_keys_assocSet _ _ hP.1, ?_⟩
  intro o ho
  rcases mem_assocSet ho with rfl | hmem
  · exact ⟨h3, h4⟩
  · exact hP.2 o hmem

theorem wfOpts_applyOpts (opts : List (Str × Str)) (u : UpdateCall)
    (hP : wfOpts opts) (hu : wfCall u = true) : wfOpts (applyOpts opts u) := by
  have hu' := (by simpa [wfCall, Bool.and_eq_true] using hu :
    (validate_host_pattern u.host = true ∧ wfOptValue u.key = true) ∧
      wfOptValue u.user = true)
  have hval : ∀ (o : Option Str), wfOptValue o = true → ∀ k, o = some k → k ≠ [] →
      wfValue k = true := by
    intro o ho k hk hne
    subst hk
    have ho2 : (k.isEmpty || wfValue k) = true := by simpa [wfOptValue] using ho
    cases hke : k.isEmpty with
    | true => exact absurd (by simpa using hke) hne
    | false =>
      rw [hke] at ho2
      simpa using ho2
  have stage : ∀ (l : List (Str × Str)) (o : Option Str) (name : Str),
      wfOpts l → wfOptName name = true → wfOptValue o = true →
      wfOpts (match o with
        | some k => if k ≠ [] then assocSet l name k else l
        | none => l) := by
    intro l o name hPl hname ho
    cases o with
    | none => exact hPl
    | some k =>
      show wfOpts (if k ≠ [] then assocSet l name k else l)
      by_cases hk : k ≠ []
      · rw [if_pos hk]
        exact wfOpts_step hPl hname (hval (some k) ho k rfl hk)
      · rw [if_neg hk]
        exact hPl
  have stageP : ∀ (l : List (Str × Str)) (po : Option Int),
      wfOpts l →
      wfOpts (match po with
        | some p => if p ≠ 0 then assocSet l "Port".toList (intRepr p) else l
        | none => l) := by
    intro l po hPl
    cases po with
    | none => exact hPl
    | some p =>
      show wfOpts (if p ≠ 0 then assocSet l "Port".toList (intRepr p) else l)
      by_cases hp : p ≠ 0
      · rw [if_pos hp]
        exact wfOpts_step hPl (by decide) (wfValue_intRepr p)
      · rw [if_neg hp]
        exact hPl
  unfold applyOpts
  exact stageP _ u.port
    (stage _ u.user "User".toList
      (stage _ u.key "IdentityFile".toList hP (by decide) hu'.1.2)
      (by decide) hu'.2)

theorem mem_keys_assocSet_self {α : Type} (l : List (Str × α)) (k : Str) (v : α) :
    k ∈ (assocSet l k v).map Prod.fst := by
  rw [map_fst_assocSet]
  by_cases ha : l.any (fun e => e.1 = k) = true
  · rw [if_pos ha]
    obtain ⟨e, he, heq⟩ := List.any_eq_true.mp ha
    have heq2 : e.1 = k := by simpa using heq
    exact heq2 ▸ List.mem_map.mpr ⟨e, he, rfl⟩
  · rw [if_neg ha]
    exact List.mem_append_right _ (List.mem_cons_self _ _)

theorem mem_keys_assocSet_of_mem {α : Type} (l : List (Str × α)) (k : Str)
    (v : α) {kk : Str} (h : kk ∈ l.map Prod.fst) :
    kk ∈ (assocSet l k v).map Prod.fst := by
  rw [map_fst_assocSet]
  by_cases ha : l.any (fun e => e.1 = k) = true
  · rw [if_pos ha]
    exact h
  · rw [if_neg ha]
    exact List.mem_append.mpr (Or.inl h)

theorem mem_keys_match_opt (l : List (Str × Str)) (o : Option Str) (name : Str)
    {kk : Str} (h : kk ∈ l.map Prod.fst) :
    kk ∈ (match o with
      | some k => if k ≠ [] then assocSet l name k else l
      | none => l).map Prod.fst := by
  cases o with
  | none => exact h
  | some k =>
    show kk ∈ (if k ≠ [] then assocSet l name k else l).map Prod.fst
    by_cases hk : k ≠ []
    · rw [if_pos hk]
      exact mem_keys_assocSet_of_mem _ _ _ h
    · rw [if_neg hk]
      exact h

theorem mem_keys_match_port (l : List (Str × Str)) (po : Option Int)
    {kk : Str} (h : kk ∈ l.map Prod.fst) :
    kk ∈ (match po with
      | some p => if p ≠ 0 then assocSet l "Port".toList (intRepr p) else l
      | none => l).map Prod.fst := by
  cases po with
  | none => exact h
  | some p =>
    show kk ∈ (if p ≠ 0 then assocSet l "Port".toList (intRepr p) else l).map Prod.fst
    by_cases hp : p ≠ 0
    · rw [if_pos hp]
      exact mem_keys_assocSet_of_mem _ _ _ h
    · rw [if_neg hp]
      exact h

theorem key_mem_suppliedNames {u : UpdateCall} {k : Str} (hk : u.key = some k)
    (hne : k ≠ []) : "IdentityFile".toList ∈ suppliedNames u := by
  unfold suppliedNames suppliedOpts applyOpts
  dsimp only
  have hbase : "IdentityFile".toList ∈
      (match u.key with
        | some k2 => if k2 ≠ [] then assocSet [] "IdentityFile".toList k2
                     else ([] : List (Str × Str))
        | none => ([] : List (Str × Str))).map Prod.fst := by
    rw [hk]
    show "IdentityFile".toList ∈
      (if k ≠ [] then assocSet [] "IdentityFile".toList k
       else ([] : List (Str × Str))).map Prod.fst
    rw [if_pos hne]
    exact mem_keys_assocSet_self _ _ _
  exact mem_keys_match_port _ u.port (mem_keys_match_opt _ u.user "User".toList hbase)

theorem user_mem_suppliedNames {u : UpdateCall} {w : Str} (hw : u.user = some w)
    (hne : w ≠ []) : "User".toList ∈ suppliedNames u := by
  unfold suppliedNames suppliedOpts applyOpts
  dsimp only
  have hbase : "User".toList ∈
      (match u.user with
        | some w2 => if w2 ≠ [] then
              assocSet (match u.key with
                | some k2 => if k2 ≠ [] then assocSet [] "IdentityFile".toList k2
                             else ([] : List (Str × Str))
                | none => ([] : List (Str × Str))) "User".toList w2
            else (match u.key with
              | some k2 => if k2 ≠ [] then assocSet [] "IdentityFile".toList k2
                           else ([] : List (Str × Str))
              | none => ([] : List (Str × Str)))
        | none => (match u.key with
            | some k2 => if k2 ≠ [] then assocSet [] "IdentityFile".toList k2
                         else ([] : List (Str × Str))
            | none => ([] : List (Str × Str)))).map Prod.fst := by
    rw [hw]
    show "User".toList ∈
      (if w ≠ [] then
          assocSet (match u.key with
            | some k2 => if k2 ≠ [] then assocSet [] "IdentityFile".toList k2
                         else ([] : List (Str × Str))
            | none => ([] : List (Str × Str))) "User".toList w
        else (match u.key with
          | some k2 => if k2 ≠ [] then assocSet [] "IdentityFile".toList k2
                       else ([] : List (Str × Str))
          | none => ([] : List (Str × Str)))).map Prod.fst
    rw [if_pos hne]
    exact mem_keys_assocSet_self _ _ _
  exact mem_keys_match_port _ u.port hbase

theorem port_mem_suppliedNames {u : UpdateCall} {p : Int} (hp : u.port = some p)
    (hne : p ≠ 0) : "Port".toList ∈ suppliedNames u := by
  unfold suppliedNames suppliedOpts applyOpts
  dsimp only
  rw [hp]
  show "Port".toList ∈
    (if p ≠ 0 then
        assocSet (match u.user with
          | some w2 => if w2 ≠ [] then
                assocSet (match u.key with
                  | some k2 => if k2 ≠ [] then assocSet [] "IdentityFile".toList k2
                               else ([] : List (Str × Str))
                  | none => ([] : List (Str × Str))) "User".toList w2
              else (match u.key with
                | some k2 => if k2 ≠ [] then assocSet [] "IdentityFile".toList k2
                             else ([] : List (Str × Str))
                | none => ([] : List (Str × Str)))
          | none => (match u.key with
              | some k2 => if k2 ≠ [] then assocSet [] "IdentityFile".toList k2
                           else ([] : List (Str × Str))
              | none => ([] : List (Str × Str)))) "Port".toList (intRepr p)
      else (match u.user with
        | some w2 => if w2 ≠ [] then
              assocSet (match u.key with
                | some k2 => if k2 ≠ [] then assocSet [] "IdentityFile".toList k2
                             else ([] : List (Str × Str))
                | none => ([] : List (Str × Str))) "User".toList w2
            else (match u.key with
              | some k2 => if k2 ≠ [] then assocSet [] "IdentityFile".toList k2
                           else ([] : List (Str × Str))
              | none => ([] : List (Str × Str)))
        | none => (match u.key with
            | some k2 => if k2 ≠ [] then assocSet [] "IdentityFile".toList k2
                         else ([] : List (Str × Str))
            | none => ([] : List (Str × Str))))).map Prod.fst
  rw [if_pos hne]
  exact mem_keys_assocSet_self _ _ _

/-- Options omitted from an update call keep their previous values. -/
theorem assocGet_applyOpts_omitted (opts : List (Str × Str)) (u : UpdateCall)
    (kk : Str) (hkk : ¬ kk ∈ suppliedNames u) :
    assocGet (applyOpts opts u) kk = assocGet opts kk := by
  have hkid : ∀ (l : List (Str × Str)),
      assocGet (match u.key with
        | some k => if k ≠ [] then assocSet l "IdentityFile".toList k else l
        | none => l) kk = assocGet l kk := by
    intro l
    cases hko : u.key with
    | none => rfl
    | some k =>
      show assocGet (if k ≠ [] then assocSet l "IdentityFile".toList k else l) kk
        = assocGet l kk
      by_cases hkne : k ≠ []
      · rw [if_pos hkne]
        exact assocGet_assocSet_ne _ _ _ _
          (fun heq => hkk (heq ▸ key_mem_suppliedNames hko hkne))
      · rw [if_neg hkne]
  have huser : ∀ (l : List (Str × Str)),
      assocGet (match u.user with
        | some w => if w ≠ [] then assocSet l "User".toList w else l
        | none => l) kk = assocGet l kk := by
    intro l
    cases huo : u.user with
    | none => rfl
    | some w =>
      show assocGet (if w ≠ [] then assocSet l "User".toList w else l) kk = assocGet l kk
      by_cases hwne : w ≠ []
      · rw [if_pos hwne]
        exact assocGet_assocSet_ne _ _ _ _
          (fun heq => hkk (heq ▸ user_mem_suppliedNames huo hwne))
      · rw [if_neg hwne]
  have hport : ∀ (l : List (Str × Str)),
      assocGet (match u.port with
        | some p => if p ≠ 0 then assocSet l "Port".toList (intRepr p) else l
        | none => l) kk = assocGet l kk := by
    intro l
    cases hpo : u.port with
    | none => rfl
    | some p =>
      show assocGet (if p ≠ 0 then assocSet l "Port".toList (intRepr p) else l) kk
        = assocGet l kk
      by_cases hpne : p ≠ 0
      · rw [if_pos hpne]
        exact assocGet_assocSet_ne _ _ _ _
          (fun heq => hkk (heq ▸ port_mem_suppliedNames hpo hpne))
      · rw [if_neg hpne]
  unfold applyOpts
  dsimp only
  rw [hport, huser, hkid]

theorem wfConfig_append_fresh (cfg : SshConfig) (u : UpdateCall)
    (hwf : wfConfig cfg) (hu : wfCall u = true)
    (hno : ∀ e ∈ cfg, ¬ e.1 = u.host) :
    wfConfig (cfg ++ (u.host, suppliedOpts u) :: []) := by
  have hhost : validate_host_pattern u.host = true := by
    have := (by simpa [wfCall, Bool.and_eq_true] using hu :
      (validate_host_pattern u.host = true ∧ wfOptValue u.key = true) ∧
        wfOptValue u.user = true)
    exact this.1.1
  have hopts : wfOpts (suppliedOpts u) :=
    wfOpts_applyOpts [] u ⟨by simp, by simp⟩ hu
  constructor
  · have hmem : ¬ u.host ∈ cfg.map Prod.fst := by
      intro hx
      obtain ⟨e, he, heq⟩ := List.mem_map.mp hx
      exact hno e he heq
    rw [List.map_append, List.map_cons, List.map_nil]
    dsimp only
    rw [← List.concat_eq_append]
    exact List.Nodup.concat hmem hwf.1
  · intro e he
    rcases List.mem_append.mp he with h1 | h2
    · exact hwf.2 e h1
    · have he2 : e = (u.host, suppliedOpts u) := by simpa using h2
      subst he2
      exact ⟨hhost, hopts.1, hopts.2⟩

theorem wfConfig_existing (pre post : SshConfig) (u : UpdateCall)
    (opts : List (Str × Str))
    (hwf : wfConfig (pre ++ (u.host, opts) :: post)) (hu : wfCall u = true) :
    wfConfig (pre ++ (u.host, applyOpts opts u) :: post) := by
  have hmid := hwf.2 (u.host, opts) (by simp)
  have hopts : wfOpts (applyOpts opts u) :=
    wfOpts_applyOpts opts u ⟨hmid.2.1, hmid.2.2⟩ hu
  constructor
  · have := hwf.1
    rwa [List.map_append, List.map_cons] at this ⊢
  · intro e he
    rcases List.mem_append.mp he with h1 | h2
    · exact hwf.2 e (List.mem_append.mpr (Or.inl h1))
    · rcases List.mem_cons.mp h2 with rfl | h3
      · exact ⟨hmid.1, hopts.1, hopts.2⟩
      · exact hwf.2 e (List.mem_append.mpr (Or.inr (List.mem_cons_of_mem _ h3)))

theorem runUpdates_spec (us : List UpdateCall) (cfg : SshConfig)
    (hwf : wfConfig cfg)
    (hcalls : ∀ u ∈ us, wfCall u = true)
    (hnd : (us.map UpdateCall.host).Nodup)
    (hdisj : ∀ u ∈ us, ∀ e ∈ cfg, ¬ e.1 = u.host) :
    get_ssh_config (runUpdates (serializeConfig cfg) us) =
      cfg ++ us.map (fun u => (u.host, suppliedOpts u)) := by
  induction us generalizing cfg with
  | nil => simpa [runUpdates] using get_serialize_roundtrip cfg hwf
  | cons u us' ih =>
    have hu := hcalls u (List.mem_cons_self _ _)
    have hnou : ∀ e ∈ cfg, ¬ e.1 = u.host :=
      fun e he => hdisj u (List.mem_cons_self _ _) e he
    have hstep : (update_ssh_config (serializeConfig cfg) u).1 =
        serializeConfig (cfg ++ (u.host, suppliedOpts u) :: []) := by
      unfold update_ssh_config
      dsimp only
      rw [get_serialize_roundtrip cfg hwf, applyUpdate_fresh cfg u hnou]
    rw [List.map_cons, List.nodup_cons] at hnd
    have hwf' : wfConfig (cfg ++ (u.host, suppliedOpts u) :: []) :=
      wfConfig_append_fresh cfg u hwf hu hnou
    have hdisj' : ∀ u' ∈ us', ∀ e ∈ cfg ++ (u.host, suppliedOpts u) :: [],
        ¬ e.1 = u'.host := by
      intro u' hu' e he heq
      rcases List.mem_append.mp he with h1 | h2
      · exact hdisj u' (List.mem_cons_of_mem _ hu') e h1 heq
      · have he2 : e = (u.host, suppliedOpts u) := by simpa using h2
        subst he2
        have heq2 : u.host = u'.host := heq
        apply hnd.1
        rw [heq2]
        exact List.mem_map.mpr ⟨u', hu', rfl⟩
    have hrec := ih (cfg ++ (u.host, suppliedOpts u) :: []) hwf'
      (fun x hx => hcalls x (List.mem_cons_of_mem _ hx)) hnd.2 hdisj'
    show get_ssh_config (runUpdates
      ((update_ssh_config (serializeConfig cfg) u).1) us') = _
    rw [hstep, hrec]
    simp

/-- C6 counterexample: the round trip is not exact for every supplied
value. Supplying the user value "git " (with a trailing space) and then
reading the config back returns "git": `get_ssh_config` strips every
line before splitting it, so a value's trailing whitespace is lost and
the claim's unrestricted quantification over supplied values is false. -/
theorem update_ssh_config_trailing_space_counterexample :
    get_ssh_config (runUpdates []
        [UpdateCall.mk "example.com".toList none (some "git ".toList) none]) =
      [("example.com".toList, [("User".toList, "git".toList)])] ∧
    ("git".toList : Str) ≠ "git ".toList := by
  exact ⟨by decide, by decide⟩

/-- C6 (amended): sequential `update_ssh_config` calls with well-formed,
pairwise distinct host patterns followed by `get_ssh_config` return
exactly the hosts updated, in call order, each carrying exactly the
supplied (truthy) option values; and an update addressed to an existing
host keeps that host at its position and leaves every option it does
not supply at its previous value. The amendment restricts the supplied
values: host patterns satisfy `validate_host_pattern` and supplied
textual values are nonempty (Python truthiness drops empty ones),
contain no newline or carriage return, and do not end in a character of
Python's whitespace class (`pyIsSpace`), since — as the counterexample
shows — values outside this class do not survive the stripped
line-oriented file format. -/
theorem update_get_ssh_config_round_trip :
    (∀ us : List UpdateCall,
      (∀ u ∈ us, wfCall u = true) →
      (us.map UpdateCall.host).Nodup →
      get_ssh_config (runUpdates [] us) =
        us.map (fun u => (u.host, suppliedOpts u))) ∧
    (∀ (pre post : SshConfig) (opts : List (Str × Str)) (u : UpdateCall),
      wfConfig (pre ++ (u.host, opts) :: post) →
      wfCall u = true →
      get_ssh_config
          ((update_ssh_config (serializeConfig (pre ++ (u.host, opts) :: post)) u).1)
        = pre ++ (u.host, applyOpts opts u) :: post ∧
      ∀ kk, ¬ kk ∈ suppliedNames u →
        assocGet (applyOpts opts u) kk = assocGet opts kk) := by
  constructor
  · intro us hcalls hnd
    have h0 : runUpdates ([] : List Str) us = runUpdates (serializeConfig []) us := rfl
    rw [h0, runUpdates_spec us [] ⟨by simp, by simp⟩ hcalls hnd (by simp)]
    simp
  · intro pre post opts u hwf hu
    constructor
    · obtain ⟨hpre, hpost⟩ := keys_split_not_mem hwf.1
      unfold update_ssh_config
      dsimp only
      rw [get_serialize_roundtrip _ hwf, applyUpdate_existing pre post u opts hpre hpost]
      exact get_serialize_roundtrip _ (wfConfig_existing pre post u opts hwf hu)
    · intro kk hkk
      exact assocGet_applyOpts_omitted opts u kk hkk

theorem update_get_ssh_config_round_trip_witness :
    (∀ u ∈ [UpdateCall.mk "github.com".toList (some "~/.ssh/id_ed25519".toList)
        (some "git".toList) (some 22),
      UpdateCall.mk "example.com".toList none (some "alice".toList) none],
      wfCall u = true) ∧
    get_ssh_config (runUpdates []
        [UpdateCall.mk "github.com".toList (some "~/.ssh/id_ed25519".toList)
          (some "git".toList) (some 22),
         UpdateCall.mk "example.com".toList none (some "alice".toList) none]) =
      [("github.com".toList,
         [("IdentityFile".toList, "~/.ssh/id_ed25519".toList),
          ("User".toList, "git".toList), ("Port".toList, "22".toList)]),
       ("example.com".toList, [("User".toList, "alice".toList)])] ∧
    get_ssh_config ((update_ssh_config (serializeConfig
        [("example.com".toList, [("User".toList, "alice".toList)])])
        (UpdateCall.mk "example.com".toList none none (some 2222))).1) =
      [("example.com".toList,
        [("User".toList, "alice".toList), ("Port".toList, "2222".toList)])] ∧
    assocGet (applyOpts [("User".toList, "alice".toList)]
        (UpdateCall.mk "example.com".toList none none (some 2222)))
        "User".toList = assocGet [("User".toList, "alice".toList)] "User".toList := by
  refine ⟨by decide, ?_, ?_, ?_⟩
  · have h1 := update_get_ssh_config_round_trip.1
      [UpdateCall.mk "github.com".toList (some "~/.ssh/id_ed25519".toList)
        (some "git".toList) (some 22),
       UpdateCall.mk "example.com".toList none (some "alice".toList) none]
      (by decide) (by decide)
    rw [h1]
    decide
  · have h2 := (update_get_ssh_config_round_trip.2 []
      [] [("User".toList, "alice".toList)]
      (UpdateCall.mk "example.com".toList none none (some 2222))
      (by decide) (by decide)).1
    exact h2.trans (by decide)
  · have h3 := (update_get_ssh_config_round_trip.2 []
      [] [("User".toList, "alice".toList)]
      (UpdateCall.mk "example.com".toList none none (some 2222))
      (by decide) (by decide)).2
    exact h3 "User".toList (by decide)

end Keyctl
